import Mathlib

/-!
Shallow embedding of the cellulite geospatial index (meilisearch/cellulite).

The embedding models the four logical tables of the store (items, cells,
pending updates, metadata) and the operations `add`, `add_raw_zerometry`,
`delete`, `clear`, `build` (src/builder.rs, src/lib.rs) and the reader
`in_shape` / `in_circle` (src/reader.rs).

Modelling conventions:
- item ids, cell ids, geometry handles and query handles are natural numbers;
- roaring bitmaps are `Finset ℕ`;
- each table is a function from its key space to `Option` of its value type
  (`none` = row absent); the updates table is kept as the pair of disjoint
  id sets holding an `Insert` (resp. `Delete`) marker, which is in bijection
  with the id → marker map that the LMDB table realises;
- the external geometry libraries (h3o cells, tilers, plotters and the
  zerometry relation computations) are out of scope per the specification;
  they enter as an abstract `GeoModel` parameter whose fields mirror exactly
  the calls the cellulite sources make into them;
- the parallel thread-local accumulation of the level-zero explosion is
  modelled sequentially in ascending id order; the merge is an OR-union of
  bitmaps, which is commutative and associative, so the resulting table
  state is the same;
- Rust recursion bounded by the 16 grid resolutions is given an explicit
  fuel argument (`buildFuel` = 16 covers every real execution);
- a Rust `Result` is `Except`, an unrecoverable Rust abort in a codec is
  `Option.none`.
-/

abbrev ItemId := ℕ

abbrev CellId := ℕ

abbrev Geom := ℕ

abbrev Query := ℕ

/-- Semver triple `{major, minor, patch}` of the metadata table.

Modelled from the spec: the `metadata` module (`Version`, `VersionCodec`)
is declared in src/lib.rs but its file is missing from the sources; per
spec §3 and §4.F the persisted value is a semver triple and
`Version::default()` is the code's current version. -/
abbrev Ver := ℕ × ℕ × ℕ

/-- The code's current version. The repository's test snapshots print it as
`Version: 0.2.0`. -/
def currentVersion : Ver := (0, 2, 0)

/-- Update markers stored in the pending-updates table (src/keys.rs). -/
inductive UpdateType where
  | Insert
  | Delete
deriving DecidableEq, Repr

/-- Errors produced inside the build pipeline after the version gate
(src/error.rs): a missing document id, or a failure of the external
tiler/plotter while exploding a geometry at level zero. -/
inductive SubErr where
  | docIdMissing (i : ItemId)
  | explodeFailed
deriving DecidableEq, Repr

/-- Errors returned by `build` (src/error.rs): the version gate, or an
error bubbled up from the pipeline. -/
inductive CError where
  | versionMismatchOnBuild (v : Ver)
  | sub (e : SubErr)
deriving DecidableEq, Repr

/-- The four logical tables of a cellulite database. `cell` holds the
variant-1 (cell) rows and `belly` the variant-2 (belly) rows of the cells
table; the two key spaces are disjoint because the variant byte is part of
the key (src/keys.rs). The updates table maps each id to its most recent
marker; it is represented by the set of ids marked `Insert` and the set of
ids marked `Delete`. -/
@[ext]
structure DB where
  items : ItemId → Option Geom
  cell : CellId → Option (Finset ItemId)
  belly : CellId → Option (Finset ItemId)
  updIns : Finset ItemId
  updDel : Finset ItemId
  metadata : Option Ver

/-- A freshly created database: all four tables empty. -/
def emptyDB : DB where
  items := fun _ => none
  cell := fun _ => none
  belly := fun _ => none
  updIns := ∅
  updDel := ∅
  metadata := none

/-- Bitmap of a cell-variant row (`∅` when the row is absent). -/
def cellSet (s : DB) (c : CellId) : Finset ItemId := (s.cell c).getD ∅

/-- Bitmap of a belly-variant row (`∅` when the row is absent). -/
def bellySet (s : DB) (c : CellId) : Finset ItemId := (s.belly c).getD ∅

/-- Overwrite a cell-variant row. -/
def putCell (c : CellId) (b : Finset ItemId) (s : DB) : DB :=
  { s with cell := fun d => if d = c then some b else s.cell d }

/-- Overwrite a belly-variant row. -/
def putBelly (c : CellId) (b : Finset ItemId) (s : DB) : DB :=
  { s with belly := fun d => if d = c then some b else s.belly d }

/-- The marker held by the updates table for an id, as the LMDB row it
corresponds to. -/
def updateRow (s : DB) (i : ItemId) : Option UpdateType :=
  if i ∈ s.updIns then some .Insert
  else if i ∈ s.updDel then some .Delete
  else none

/-- `Cellulite::get_version` (src/lib.rs lines 193-200): an absent
metadata row is read as the current version. -/
def getVersion (s : DB) : Ver := s.metadata.getD currentVersion

/-- `Cellulite::add` (src/lib.rs lines 268-273): store the serialized
geometry in the items table and overwrite the update marker with
`Insert`. -/
def addOp (i : ItemId) (geom : Geom) (s : DB) : DB :=
  { s with
    items := fun j => if j = i then some geom else s.items j
    updIns := insert i s.updIns
    updDel := s.updDel.erase i }

/-- `Cellulite::add_raw_zerometry` (src/lib.rs lines 276-282): identical
writes, the caller-provided bytes are trusted. -/
def addRawOp (i : ItemId) (geom : Geom) (s : DB) : DB :=
  { s with
    items := fun j => if j = i then some geom else s.items j
    updIns := insert i s.updIns
    updDel := s.updDel.erase i }

/-- `Cellulite::delete` (src/lib.rs lines 284-287): only the update marker
is written; the items table and the cell hierarchy are untouched. -/
def deleteOp (i : ItemId) (s : DB) : DB :=
  { s with
    updDel := insert i s.updDel
    updIns := s.updIns.erase i }

/-- `Cellulite::clear` (src/lib.rs lines 173-179): truncate all four
tables. -/
def clearOp (_s : DB) : DB := emptyDB

/-- Abstract interface to the external geometry collaborators (h3o and
zerometry), exactly the calls made by the cellulite sources.

`rel geom c` is the pair
`(relation.strict_contains.unwrap_or_default(), relation.any_relation())`
of the masked relation query made by `insert_chunk_of_items_recursively`
(src/builder.rs lines 454-470). `childrenCells` is `get_children_cells`
(center child's grid disk of radius 2, `none` at resolution 15).
`explodeZero` is `explode_level_zero_geo` (`none` models a tiler/plotter
failure). The reader-side fields mirror src/reader.rs: `densify` is the
haversine densification, `tileZero` the resolution-0 covers tiling,
`qContains`/`qIntersects` the polygon/cell-polygon predicates, `res` the
cell resolution, `tileQueryAt q r` the covers tiling of the query at
resolution `r`, `tileCellNext c` the covers tiling of `c`'s own polygon at
the next resolution, `anyRel` the final `any_relation` double check, and
`circlePoly center radius n` the inscribed `n`-gon built by `in_circle`.
The three tiling fields return `Option` because `TilerBuilder::add` /
`add_batch` return `Result<_, InvalidGeometry>`, which `in_shape`
propagates with `?` (src/reader.rs lines 38, 72, 74); `none` models that
error. -/
structure GeoModel where
  baseCells : List CellId
  childrenCells : CellId → Option (List CellId)
  explodeZero : Geom → Option (List CellId × List CellId)
  rel : Geom → CellId → Bool × Bool
  densify : Query → Query
  tileZero : Query → Option (List CellId)
  qContains : Query → CellId → Bool
  qIntersects : Query → CellId → Bool
  res : CellId → ℕ
  tileQueryAt : Query → ℕ → Option (List CellId)
  tileCellNext : CellId → Option (List CellId)
  anyRel : Geom → Query → Bool
  circlePoly : ℕ → ℕ → ℕ → Query

/-- Ascending list of the elements of a bitmap: the iteration order of a
roaring bitmap. -/
def ascList (s : Finset ℕ) : List ℕ :=
  (List.range (s.max.unbot' 0 + 1)).filter (fun j => j ∈ s)

/-- Classify a list of items against one cell polygon, as the inner loops
of `insert_chunk_of_items_recursively` do (src/builder.rs lines 450-471
and 511-529): an item whose geometry strictly contains the cell goes to
the belly accumulator, an item with any other relation goes to the cell
accumulator, and a missing geometry aborts with `InternalDocIdMissing`. -/
def classifyItems (g : GeoModel) (frozen : ItemId → Option Geom) (c : CellId) :
    List ItemId → Finset ItemId → Finset ItemId →
    Except SubErr (Finset ItemId × Finset ItemId)
  | [], tb, tc => .ok (tb, tc)
  | i :: rest, tb, tc =>
    match frozen i with
    | none => .error (.docIdMissing i)
    | some geom =>
      let r := g.rel geom c
      if r.1 then classifyItems g frozen c rest (insert i tb) tc
      else if r.2 then classifyItems g frozen c rest tb (insert i tc)
      else classifyItems g frozen c rest tb tc

/-- Classification maps for every child cell (step 2 of
`insert_chunk_of_items_recursively`): per child, the belly-bound and
cell-bound id sets. -/
def classifyAll (g : GeoModel) (frozen : ItemId → Option Geom)
    (itemsList : List ItemId) :
    List CellId → Except SubErr (List (CellId × Finset ItemId × Finset ItemId))
  | [] => .ok []
  | c :: rest =>
    match classifyItems g frozen c itemsList ∅ ∅ with
    | .error e => .error e
    | .ok (tb, tc) =>
      match classifyAll g frozen itemsList rest with
      | .error e => .error e
      | .ok tail => .ok ((c, tb, tc) :: tail)

/-- Step 3 of `insert_chunk_of_items_recursively` (src/builder.rs lines
475-485): OR every non-empty belly-bound set into the belly row of its
child cell. -/
def writeBellies (cls : List (CellId × Finset ItemId × Finset ItemId)) (s : DB) : DB :=
  cls.foldl (fun s e => if e.2.1 = ∅ then s else putBelly e.1 (bellySet s e.1 ∪ e.2.1) s) s

/-- Processing of one `to_insert` entry of `insert_chunk_of_items_recursively`
(src/builder.rs lines 487-547): write the union into the cell row, then
either recurse (already over threshold), reclassify the previously stored
items and recurse (just crossed the threshold), or stop. `rec` is the
recursive call at the next resolution. -/
def processCellEntry (g : GeoModel) (th : ℕ) (frozen : ItemId → Option Geom)
    (rec : DB → Finset ItemId → CellId → Except SubErr DB)
    (s : DB) (c : CellId) (tc : Finset ItemId) : Except SubErr DB :=
  if tc = ∅ then .ok s
  else
    let original := cellSet s c
    let newb := original ∪ tc
    let s1 := putCell c newb s
    if th ≤ original.card then rec s1 tc c
    else if th ≤ newb.card then
      match classifyItems g frozen c (ascList original) ∅ ∅ with
      | .error e => .error e
      | .ok (bellyItems, extra) =>
        rec (putBelly c (bellySet s1 c ∪ bellyItems) s1) (tc ∪ extra) c
    else .ok s1

/-- Fold `processCellEntry` over all children entries (step 4 of
`insert_chunk_of_items_recursively`). -/
def processCells (g : GeoModel) (th : ℕ) (frozen : ItemId → Option Geom)
    (rec : DB → Finset ItemId → CellId → Except SubErr DB) :
    List (CellId × Finset ItemId × Finset ItemId) → DB → Except SubErr DB
  | [], s => .ok s
  | e :: rest, s =>
    match processCellEntry g th frozen rec s e.1 e.2.2 with
    | .error err => .error err
    | .ok s' => processCells g th frozen rec rest s'

/-- `Cellulite::insert_chunk_of_items_recursively` (src/builder.rs lines
429-549). The fuel argument bounds the recursion depth; the real recursion
stops when `childrenCells` returns `none` at resolution 15, so any fuel
of at least 16 covers every real execution. -/
def insertChunk (g : GeoModel) (th : ℕ) (frozen : ItemId → Option Geom) :
    ℕ → DB → Finset ItemId → CellId → Except SubErr DB
  | 0, s, _, _ => .ok s
  | fuel + 1, s, items, cell =>
    match g.childrenCells cell with
    | none => .ok s
    | some children =>
      match classifyAll g frozen (ascList items) children with
      | .error e => .error e
      | .ok cls =>
        processCells g th frozen (insertChunk g th frozen fuel) cls (writeBellies cls s)

/-- Level-zero insertion of one item (`Cellulite::insert_items_at_level_zero`,
src/builder.rs lines 219-319): explode the geometry at resolution 0 and OR
the id into the cell row of every touched cell and the belly row of every
fully covered cell. -/
def insertOne (g : GeoModel) (frozen : ItemId → Option Geom) (s : DB) (i : ItemId) :
    Except SubErr DB :=
  match frozen i with
  | none => .error (.docIdMissing i)
  | some geom =>
    match g.explodeZero geom with
    | none => .error .explodeFailed
    | some (cs, bs) =>
      let s := cs.foldl (fun s c => putCell c (cellSet s c ∪ {i}) s) s
      let s := bs.foldl (fun s c => putBelly c (bellySet s c ∪ {i}) s) s
      .ok s

/-- Insert every freshly added item at level zero. The parallel
thread-local maps of the source OR-merge commutatively, so the sequential
ascending-id fold produces the same table state. -/
def insertLevelZero (g : GeoModel) (frozen : ItemId → Option Geom) :
    List ItemId → DB → Except SubErr DB
  | [], s => .ok s
  | i :: rest, s =>
    match insertOne g frozen s i with
    | .error e => .error e
    | .ok s' => insertLevelZero g frozen rest s'

/-- Recursion-depth bound used by `build`: the 16 grid resolutions. -/
def buildFuel : ℕ := 16

/-- Step 4 of `Cellulite::build` (src/builder.rs lines 107-120): for each
base cell, recurse into it when its bitmap reaches the threshold and
intersects the freshly inserted ids. -/
def buildLoop (g : GeoModel) (th : ℕ) (frozen : ItemId → Option Geom)
    (inserted : Finset ItemId) :
    List CellId → DB → Except SubErr DB
  | [], s => .ok s
  | c :: rest, s =>
    let bitmap := cellSet s c
    if bitmap.card < th ∨ bitmap ∩ inserted = ∅ then
      buildLoop g th frozen inserted rest s
    else
      match insertChunk g th frozen buildFuel s bitmap c with
      | .error e => .error e
      | .ok s' => buildLoop g th frozen inserted rest s'

/-- `Cellulite::remove_deleted_items` (src/builder.rs lines 133-217):
delete the items rows of the deleted ids, then subtract the deleted set
from every cell-variant bitmap and every belly-variant bitmap, deleting
any row whose bitmap becomes empty. -/
def removeDeleted (del : Finset ItemId) (s : DB) : DB :=
  { s with
    items := fun i => if i ∈ del then none else s.items i
    cell := fun c =>
      match s.cell c with
      | none => none
      | some b => if b \ del = ∅ then none else some (b \ del)
    belly := fun c =>
      match s.belly c with
      | none => none
      | some b => if b \ del = ∅ then none else some (b \ del) }

/-- `Cellulite::build` (src/builder.rs lines 78-126): version gate, drain
and clear the pending updates, remove the deleted items, snapshot the
items table, insert the new items at level zero, recursively split, then
write the current version into the metadata table. -/
def build (g : GeoModel) (th : ℕ) (s : DB) : Except CError DB :=
  if getVersion s ≠ currentVersion then
    .error (.versionMismatchOnBuild (getVersion s))
  else
    let inserted := s.updIns
    let deleted := s.updDel
    let s := { s with updIns := ∅, updDel := ∅ }
    let s := removeDeleted deleted s
    let frozen := s.items
    match insertLevelZero g frozen (ascList inserted) s with
    | .error e => .error (.sub e)
    | .ok s =>
      match buildLoop g th frozen inserted g.baseCells s with
      | .error e => .error (.sub e)
      | .ok s => .ok { s with metadata := some currentVersion }

/-- `UpdateType::bytes_decode` (src/keys.rs lines 139-149): the single
byte 0 decodes to `Insert`, the single byte 1 to `Delete`; every other
byte slice hits the `panic` arm, modelled as `none`. The codomain has no
error case, mirroring that the Rust code aborts instead of returning a
decoding `Err`. -/
def bytesDecodeUpdateType : List ℕ → Option UpdateType
  | [b] =>
    if b = 0 then some .Insert
    else if b = 1 then some .Delete
    else none
  | _ => none

/-- `UpdateType::bytes_encode` (src/keys.rs lines 131-137). -/
def bytesEncodeUpdateType : UpdateType → List ℕ
  | .Insert => [0]
  | .Delete => [1]

/-- The BFS loop of `Cellulite::in_shape_with_inspector` (src/reader.rs
lines 46-94), with the queue, the already-explored set, the returned and
double-check bitmaps and the `too_large` latch threaded explicitly. A
`none` result is the `InvalidGeometry` error of the deep-dive tiler
(`tiler.add` / `tiler.add_batch` at src/reader.rs lines 72-74),
propagated with `?`. The fuel bounds the loop; the real loop terminates
because the cell space at each of the 16 resolutions is finite. -/
def bfsGo (g : GeoModel) (th : ℕ) (s : DB) (qd : Query) :
    ℕ → List CellId → Finset CellId → Finset ItemId → Finset ItemId → Bool →
    Option (Finset CellId × Finset ItemId × Finset ItemId)
  | 0, _, ex, ret, dc, _ => some (ex, ret, dc)
  | _ + 1, [], ex, ret, dc, _ => some (ex, ret, dc)
  | fuel + 1, c :: rest, ex, ret, dc, tl =>
    if c ∈ ex then bfsGo g th s qd fuel rest ex ret dc tl
    else
      let ex := insert c ex
      match s.cell c with
      | none => bfsGo g th s qd fuel rest ex ret dc tl
      | some items =>
        if g.qContains qd c = true then
          bfsGo g th s qd fuel rest ex (ret ∪ items) dc tl
        else if g.qIntersects qd c = true then
          if items.card < th ∨ g.res c = 15 then
            bfsGo g th s qd fuel rest ex ret (dc ∪ items) tl
          else
            match (if tl then g.tileCellNext c else g.tileQueryAt qd (g.res c + 1)) with
            | none => none
            | some newCells =>
              let enqueue := newCells.filter (fun d => d ∉ ex)
              let tl' := if 3 < newCells.length then true else tl
              bfsGo g th s qd fuel (rest ++ enqueue) ex ret dc tl'
        else bfsGo g th s qd fuel rest ex ret dc tl

/-- BFS phase of `in_shape`: densify the query, tile it at resolution 0
(`tiler.add(polygon.clone())?` at src/reader.rs line 38, whose failure is
`none`), and run the loop. On success, returns (explored set, returned
bitmap, double-check bitmap). -/
def inShapeBfs (g : GeoModel) (th : ℕ) (s : DB) (q : Query) (fuel : ℕ) :
    Option (Finset CellId × Finset ItemId × Finset ItemId) :=
  let qd := g.densify q
  match g.tileZero qd with
  | none => none
  | some seeds => bfsGo g th s qd fuel seeds ∅ ∅ ∅ false

/-- Candidate-verification loop of `in_shape` (src/reader.rs lines
99-104): load each candidate's geometry and include the id when
`any_relation` reports any relation bit. The `unwrap` on the item lookup
is an abort when the geometry is missing, modelled as `none`. -/
def verifyCandidates (g : GeoModel) (s : DB) (qd : Query) :
    List ItemId → Finset ItemId → Option (Finset ItemId)
  | [], acc => some acc
  | i :: rest, acc =>
    match s.items i with
    | none => none
    | some geom =>
      verifyCandidates g s qd rest (if g.anyRel geom qd then insert i acc else acc)

/-- Outcome of a query. `ok` is `Ok(bitmap)`; `invalidGeometry` is the
`Error::InvalidGeometry` a tiler failure propagates with `?`
(src/reader.rs lines 38, 72, 74 via src/error.rs lines 31-32); `abort`
is the `unwrap` panic on a candidate id with no stored geometry
(src/reader.rs line 100). In the embedding the KV store cannot fail, so
these are the only outcomes. -/
inductive QueryRes where
  | ok (ids : Finset ItemId)
  | invalidGeometry
  | abort
deriving DecidableEq

/-- `Cellulite::in_shape` (src/reader.rs lines 28-107): BFS, subtract the
confirmed set from the double-check set, verify the remaining candidates.
The function reads the tables and never writes. -/
def inShape (g : GeoModel) (th : ℕ) (s : DB) (q : Query) (fuel : ℕ) : QueryRes :=
  let qd := g.densify q
  match inShapeBfs g th s q fuel with
  | none => .invalidGeometry
  | some out =>
    match verifyCandidates g s qd (ascList (out.2.2 \ out.2.1)) out.2.1 with
    | none => .abort
    | some ids => .ok ids

/-- `Cellulite::in_circle` (src/reader.rs lines 114-148): build the
inscribed polygon approximating the circle and call `in_shape`. With
fewer than 3 vertices the polygon is degenerate and the resolution-0
tiler rejects it, which is how `in_circle` reaches the `invalidGeometry`
outcome in the real code. -/
def inCircle (g : GeoModel) (th : ℕ) (s : DB) (center radius n : ℕ) (fuel : ℕ) :
    QueryRes :=
  inShape g th s (g.circlePoly center radius n) fuel

/-- Database states reachable through the public write API with successful
builds. -/
inductive Reachable (g : GeoModel) (th : ℕ) : DB → Prop where
  | empty : Reachable g th emptyDB
  | add (i : ItemId) (geom : Geom) {s : DB} :
      Reachable g th s → Reachable g th (addOp i geom s)
  | addRaw (i : ItemId) (geom : Geom) {s : DB} :
      Reachable g th s → Reachable g th (addRawOp i geom s)
  | delete (i : ItemId) {s : DB} :
      Reachable g th s → Reachable g th (deleteOp i s)
  | clear {s : DB} : Reachable g th s → Reachable g th (clearOp s)
  | build {s s' : DB} :
      Reachable g th s → build g th s = .ok s' → Reachable g th s'

/-- Database states reachable using only `add` / `add_raw_zerometry` and
successful builds (no deletion). -/
inductive ReachableNoDelete (g : GeoModel) (th : ℕ) : DB → Prop where
  | empty : ReachableNoDelete g th emptyDB
  | add (i : ItemId) (geom : Geom) {s : DB} :
      ReachableNoDelete g th s → ReachableNoDelete g th (addOp i geom s)
  | addRaw (i : ItemId) (geom : Geom) {s : DB} :
      ReachableNoDelete g th s → ReachableNoDelete g th (addRawOp i geom s)
  | build {s s' : DB} :
      ReachableNoDelete g th s → build g th s = .ok s' → ReachableNoDelete g th s'

/-! Concrete instantiation used by witnesses and counterexamples: one base
cell `0` whose only child is cell `7`; every geometry explodes to the base
cell and touches (without strictly containing) the child; every query
relates to everything. -/

/-- Tiny concrete geometry model for witnesses and counterexamples. -/
def g0 : GeoModel where
  baseCells := [0]
  childrenCells := fun c => if c = 0 then some [7] else none
  explodeZero := fun _ => some ([0], [])
  rel := fun _ c => if c = 7 then (false, true) else (false, false)
  densify := id
  tileZero := fun _ => some [0]
  qContains := fun _ _ => true
  qIntersects := fun _ _ => true
  res := fun c => if c = 0 then 0 else 1
  tileQueryAt := fun _ _ => some []
  tileCellNext := fun _ => some []
  anyRel := fun _ _ => true
  circlePoly := fun _ _ _ => 0

/-- One item added to the fresh database. -/
def exDB0 : DB := addOp 0 0 emptyDB

/-- State after the first build of `exDB0` with threshold 1: the child
cell just crossed the threshold, so an empty belly row was persisted at
cell 7. -/
def exDB1 : DB := (build g0 1 exDB0).toOption.getD emptyDB

/-- State after a second build with no intervening write: the deletion
scan of the second build removed the empty belly row. -/
def exDB2 : DB := (build g0 1 exDB1).toOption.getD emptyDB

/-- Two items added to the fresh database. -/
def exDB3 : DB := addOp 1 1 (addOp 0 0 emptyDB)

/-- State after building `exDB3` with threshold 2: base cell 0 and child
cell 7 both hold `{0, 1}`. -/
def exDB4 : DB := (build g0 2 exDB3).toOption.getD emptyDB

/-- State after deleting item 0 from `exDB4` and rebuilding: the child
row at cell 7 survives while the base cell population falls below the
threshold. -/
def exDB5 : DB := (build g0 2 (deleteOp 0 exDB4)).toOption.getD emptyDB

/-! Basic lemmas about rows and row updates. -/

theorem cellSet_putCell (s : DB) (c d : CellId) (b : Finset ItemId) :
    cellSet (putCell c b s) d = if d = c then b else cellSet s d := by
  by_cases h : d = c <;> simp [cellSet, putCell, h]

theorem cell_putCell (s : DB) (c d : CellId) (b : Finset ItemId) :
    (putCell c b s).cell d = if d = c then some b else s.cell d := rfl

theorem bellySet_putCell (s : DB) (c d : CellId) (b : Finset ItemId) :
    bellySet (putCell c b s) d = bellySet s d := rfl

theorem belly_putCell (s : DB) (c d : CellId) (b : Finset ItemId) :
    (putCell c b s).belly d = s.belly d := rfl

theorem bellySet_putBelly (s : DB) (c d : CellId) (b : Finset ItemId) :
    bellySet (putBelly c b s) d = if d = c then b else bellySet s d := by
  by_cases h : d = c <;> simp [bellySet, putBelly, h]

theorem belly_putBelly (s : DB) (c d : CellId) (b : Finset ItemId) :
    (putBelly c b s).belly d = if d = c then some b else s.belly d := rfl

theorem cellSet_putBelly (s : DB) (c d : CellId) (b : Finset ItemId) :
    cellSet (putBelly c b s) d = cellSet s d := rfl

theorem cell_putBelly (s : DB) (c d : CellId) (b : Finset ItemId) :
    (putBelly c b s).cell d = s.cell d := rfl

theorem mem_cellSet_of_row {s : DB} {c : CellId} {b : Finset ItemId}
    (h : s.cell c = some b) : cellSet s c = b := by
  simp [cellSet, h]

/-! Lemmas about the ascending iteration list. -/

theorem mem_ascList {s : Finset ℕ} {i : ℕ} : i ∈ ascList s ↔ i ∈ s := by
  unfold ascList
  simp only [List.mem_filter, List.mem_range, decide_eq_true_eq, and_iff_right_iff_imp]
  intro hi
  have h := Finset.le_max hi
  cases hmax : s.max with
  | bot => simp [hmax] at h
  | coe m =>
    rw [hmax] at h
    simp only [WithBot.coe_le_coe] at h
    simp [hmax, WithBot.unbot']
    omega

theorem ascList_toFinset (s : Finset ℕ) : (ascList s).toFinset = s := by
  ext i
  simp [List.mem_toFinset, mem_ascList]

theorem ascList_nodup (s : Finset ℕ) : (ascList s).Nodup :=
  (List.nodup_range _).filter _

theorem ascList_empty : ascList ∅ = [] := by decide

/-! Lemmas about the classification loops. -/

/-- Bool predicate: the item's stored geometry strictly contains the cell
polygon (false when no geometry is stored). -/
def strictB (g : GeoModel) (frozen : ItemId → Option Geom) (c : CellId) (i : ItemId) : Bool :=
  match frozen i with
  | some geom => (g.rel geom c).1
  | none => false

/-- Bool predicate: the item's stored geometry does not strictly contain
the cell polygon but has some relation with it. -/
def touchB (g : GeoModel) (frozen : ItemId → Option Geom) (c : CellId) (i : ItemId) : Bool :=
  match frozen i with
  | some geom => !(g.rel geom c).1 && (g.rel geom c).2
  | none => false

theorem classifyItems_mem {g : GeoModel} {frozen : ItemId → Option Geom} {c : CellId}
    {l : List ItemId} {tb tc tb2 tc2 : Finset ItemId}
    (h : classifyItems g frozen c l tb tc = .ok (tb2, tc2)) :
    ∀ i, (i ∈ tb2 → i ∈ tb ∨ (i ∈ l ∧ (frozen i).isSome)) ∧
      (i ∈ tc2 → i ∈ tc ∨ (i ∈ l ∧ (frozen i).isSome)) := by
  induction l generalizing tb tc with
  | nil =>
    simp only [classifyItems] at h
    obtain ⟨h1, h2⟩ := by exact Prod.mk.injEq .. ▸ (Except.ok.injEq .. ▸ h :)
    intro i
    subst h1
    subst h2
    simp
  | cons j rest ih =>
    simp only [classifyItems] at h
    cases hj : frozen j with
    | none => rw [hj] at h; exact absurd h (by simp)
    | some geom =>
      rw [hj] at h
      simp only at h
      intro i
      by_cases h1 : (g.rel geom c).1
      · rw [if_pos h1] at h
        have hm := ih h i
        constructor
        · intro hi
          rcases hm.1 hi with hh | hh
          · rcases Finset.mem_insert.mp hh with rfl | hh
            · exact Or.inr ⟨List.mem_cons_self .., by simp [hj]⟩
            · exact Or.inl hh
          · exact Or.inr ⟨List.mem_cons_of_mem _ hh.1, hh.2⟩
        · intro hi
          rcases hm.2 hi with hh | hh
          · exact Or.inl hh
          · exact Or.inr ⟨List.mem_cons_of_mem _ hh.1, hh.2⟩
      · rw [if_neg h1] at h
        by_cases h2 : (g.rel geom c).2
        · rw [if_pos h2] at h
          have hm := ih h i
          constructor
          · intro hi
            rcases hm.1 hi with hh | hh
            · exact Or.inl hh
            · exact Or.inr ⟨List.mem_cons_of_mem _ hh.1, hh.2⟩
          · intro hi
            rcases hm.2 hi with hh | hh
            · rcases Finset.mem_insert.mp hh with rfl | hh
              · exact Or.inr ⟨List.mem_cons_self .., by simp [hj]⟩
              · exact Or.inl hh
            · exact Or.inr ⟨List.mem_cons_of_mem _ hh.1, hh.2⟩
        · rw [if_neg h2] at h
          have hm := ih h i
          constructor
          · intro hi
            rcases hm.1 hi with hh | hh
            · exact Or.inl hh
            · exact Or.inr ⟨List.mem_cons_of_mem _ hh.1, hh.2⟩
          · intro hi
            rcases hm.2 hi with hh | hh
            · exact Or.inl hh
            · exact Or.inr ⟨List.mem_cons_of_mem _ hh.1, hh.2⟩

theorem classifyItems_eq_filter {g : GeoModel} {frozen : ItemId → Option Geom} {c : CellId}
    {l : List ItemId} (tb tc : Finset ItemId)
    (h : ∀ i ∈ l, (frozen i).isSome) :
    classifyItems g frozen c l tb tc =
      .ok (tb ∪ l.toFinset.filter (fun i => strictB g frozen c i),
        tc ∪ l.toFinset.filter (fun i => touchB g frozen c i)) := by
  induction l generalizing tb tc with
  | nil => simp [classifyItems]
  | cons j rest ih =>
    have hj : (frozen j).isSome := h j (List.mem_cons_self ..)
    cases hjj : frozen j with
    | none => rw [hjj] at hj; exact absurd hj (by simp)
    | some geom =>
      have hrest : ∀ i ∈ rest, (frozen i).isSome := fun i hi => h i (List.mem_cons_of_mem _ hi)
      simp only [classifyItems, hjj]
      by_cases h1 : (g.rel geom c).1
      · rw [if_pos h1, ih _ _ hrest]
        congr 2
        · ext i
          by_cases hij : i = j
          · subst hij
            simp [strictB, hjj, h1]
          · simp only [Finset.mem_union, Finset.mem_insert, Finset.mem_filter,
              List.mem_toFinset, List.toFinset_cons, hij, false_or]
            try tauto
        · ext i
          by_cases hij : i = j
          · subst hij
            simp [touchB, hjj, h1]
          · simp only [Finset.mem_union, Finset.mem_filter, List.mem_toFinset,
              List.toFinset_cons, Finset.mem_insert, hij, false_or]
            try tauto
      · rw [if_neg h1]
        by_cases h2 : (g.rel geom c).2
        · rw [if_pos h2, ih _ _ hrest]
          congr 2
          · ext i
            by_cases hij : i = j
            · subst hij
              simp [strictB, hjj, h1]
            · simp only [Finset.mem_union, Finset.mem_filter, List.mem_toFinset,
                List.toFinset_cons, Finset.mem_insert, hij, false_or]
              try tauto
          · ext i
            by_cases hij : i = j
            · subst hij
              simp [touchB, hjj, h1, h2]
            · simp only [Finset.mem_union, Finset.mem_insert, Finset.mem_filter,
                List.mem_toFinset, List.toFinset_cons, hij, false_or]
              try tauto
        · rw [if_neg h2, ih _ _ hrest]
          congr 2
          · ext i
            by_cases hij : i = j
            · subst hij
              simp [strictB, hjj, h1]
            · simp only [Finset.mem_union, Finset.mem_filter, List.mem_toFinset,
                List.toFinset_cons, Finset.mem_insert, hij, false_or]
              try tauto
          · ext i
            by_cases hij : i = j
            · subst hij
              simp [touchB, hjj, h1, h2]
            · simp only [Finset.mem_union, Finset.mem_filter, List.mem_toFinset,
                List.toFinset_cons, Finset.mem_insert, hij, false_or]
              try tauto

theorem classifyAll_mem {g : GeoModel} {frozen : ItemId → Option Geom}
    {L : List ItemId} {children : List CellId}
    {cls : List (CellId × Finset ItemId × Finset ItemId)}
    (h : classifyAll g frozen L children = .ok cls) :
    ∀ e ∈ cls, (∀ i ∈ e.2.1, i ∈ L ∧ (frozen i).isSome) ∧
      (∀ i ∈ e.2.2, i ∈ L ∧ (frozen i).isSome) := by
  induction children generalizing cls with
  | nil =>
    simp only [classifyAll] at h
    obtain rfl := by exact (Except.ok.injEq .. ▸ h :)
    simp
  | cons c rest ih =>
    simp only [classifyAll] at h
    cases h1 : classifyItems g frozen c L ∅ ∅ with
    | error e => rw [h1] at h; exact absurd h (by simp)
    | ok p =>
      rw [h1] at h
      cases h2 : classifyAll g frozen L rest with
      | error e => rw [h2] at h; exact absurd h (by simp)
      | ok tail =>
        rw [h2] at h
        simp only at h
        obtain rfl := by exact (Except.ok.injEq .. ▸ h :)
        intro e he
        rcases List.mem_cons.mp he with rfl | he
        · obtain ⟨tb, tc⟩ := p
          have hm := classifyItems_mem h1
          refine ⟨fun i hi => ?_, fun i hi => ?_⟩
          · rcases (hm i).1 hi with hh | hh
            · exact absurd hh (by simp)
            · exact hh
          · rcases (hm i).2 hi with hh | hh
            · exact absurd hh (by simp)
            · exact hh
        · exact ih h2 e he

theorem classifyAll_cells {g : GeoModel} {frozen : ItemId → Option Geom}
    {L : List ItemId} {children : List CellId}
    {cls : List (CellId × Finset ItemId × Finset ItemId)}
    (h : classifyAll g frozen L children = .ok cls) :
    ∀ e ∈ cls, e.1 ∈ children := by
  induction children generalizing cls with
  | nil =>
    simp only [classifyAll] at h
    obtain rfl := by exact (Except.ok.injEq .. ▸ h :)
    simp
  | cons c rest ih =>
    simp only [classifyAll] at h
    cases h1 : classifyItems g frozen c L ∅ ∅ with
    | error e => rw [h1] at h; exact absurd h (by simp)
    | ok p =>
      rw [h1] at h
      cases h2 : classifyAll g frozen L rest with
      | error e => rw [h2] at h; exact absurd h (by simp)
      | ok tail =>
        rw [h2] at h
        simp only at h
        obtain rfl := by exact (Except.ok.injEq .. ▸ h :)
        intro e he
        rcases List.mem_cons.mp he with rfl | he
        · exact List.mem_cons_self ..
        · exact List.mem_cons_of_mem _ (ih h2 e he)

/-! Frame lemmas: the insertion phases of `build` write only cell-variant
and belly-variant rows; the items table, the updates table and the
metadata table are untouched. -/

/-- The non-cell tables of `s'` agree with those of `s`. -/
def insFrame (s s' : DB) : Prop :=
  s'.items = s.items ∧ s'.updIns = s.updIns ∧ s'.updDel = s.updDel ∧ s'.metadata = s.metadata

theorem insFrame_refl (s : DB) : insFrame s s := ⟨rfl, rfl, rfl, rfl⟩

theorem insFrame_trans {s1 s2 s3 : DB} (h1 : insFrame s1 s2) (h2 : insFrame s2 s3) :
    insFrame s1 s3 :=
  ⟨h2.1.trans h1.1, h2.2.1.trans h1.2.1, h2.2.2.1.trans h1.2.2.1, h2.2.2.2.trans h1.2.2.2⟩

theorem insFrame_putCell (s : DB) (c : CellId) (b : Finset ItemId) :
    insFrame s (putCell c b s) := ⟨rfl, rfl, rfl, rfl⟩

theorem insFrame_putBelly (s : DB) (c : CellId) (b : Finset ItemId) :
    insFrame s (putBelly c b s) := ⟨rfl, rfl, rfl, rfl⟩

theorem writeBellies_frame (cls : List (CellId × Finset ItemId × Finset ItemId)) (s : DB) :
    insFrame s (writeBellies cls s) := by
  induction cls generalizing s with
  | nil => exact insFrame_refl s
  | cons e rest ih =>
    show insFrame s (writeBellies rest _)
    refine insFrame_trans ?_ (ih _)
    by_cases h : e.2.1 = ∅
    · simp only [h, if_pos rfl]
      exact insFrame_refl s
    · simp only [if_neg h]
      exact insFrame_putBelly ..

theorem writeBellies_cell (cls : List (CellId × Finset ItemId × Finset ItemId)) (s : DB) :
    (writeBellies cls s).cell = s.cell := by
  induction cls generalizing s with
  | nil => rfl
  | cons e rest ih =>
    show (writeBellies rest _).cell = s.cell
    rw [ih]
    by_cases h : e.2.1 = ∅ <;> simp [h, putBelly]

theorem processCellEntry_frame {g : GeoModel} {th : ℕ} {frozen : ItemId → Option Geom}
    {rec : DB → Finset ItemId → CellId → Except SubErr DB}
    (hrec : ∀ s its cc s', rec s its cc = .ok s' → insFrame s s')
    {s : DB} {c : CellId} {tc : Finset ItemId} {s' : DB}
    (h : processCellEntry g th frozen rec s c tc = .ok s') : insFrame s s' := by
  unfold processCellEntry at h
  by_cases h0 : tc = ∅
  · rw [if_pos h0] at h
    obtain rfl := by exact (Except.ok.injEq .. ▸ h :)
    exact insFrame_refl s
  · rw [if_neg h0] at h
    simp only at h
    by_cases h1 : th ≤ (cellSet s c).card
    · rw [if_pos h1] at h
      exact insFrame_trans (insFrame_putCell ..) (hrec _ _ _ _ h)
    · rw [if_neg h1] at h
      by_cases h2 : th ≤ (cellSet s c ∪ tc).card
      · rw [if_pos h2] at h
        cases h3 : classifyItems g frozen c (ascList (cellSet s c)) ∅ ∅ with
        | error e => rw [h3] at h; exact absurd h (by simp)
        | ok p =>
          rw [h3] at h
          obtain ⟨tbX, tcX⟩ := p
          simp only at h
          exact insFrame_trans (insFrame_trans (insFrame_putCell ..) (insFrame_putBelly ..))
            (hrec _ _ _ _ h)
      · rw [if_neg h2] at h
        obtain rfl := by exact (Except.ok.injEq .. ▸ h :)
        exact insFrame_putCell ..

theorem processCells_frame {g : GeoModel} {th : ℕ} {frozen : ItemId → Option Geom}
    {rec : DB → Finset ItemId → CellId → Except SubErr DB}
    (hrec : ∀ s its cc s', rec s its cc = .ok s' → insFrame s s') :
    ∀ {cls : List (CellId × Finset ItemId × Finset ItemId)} {s s' : DB},
      processCells g th frozen rec cls s = .ok s' → insFrame s s' := by
  intro cls
  induction cls with
  | nil =>
    intro s s' h
    simp only [processCells] at h
    obtain rfl := by exact (Except.ok.injEq .. ▸ h :)
    exact insFrame_refl s
  | cons e rest ih =>
    intro s s' h
    simp only [processCells] at h
    cases h1 : processCellEntry g th frozen rec s e.1 e.2.2 with
    | error err => rw [h1] at h; exact absurd h (by simp)
    | ok s1 =>
      rw [h1] at h
      exact insFrame_trans (processCellEntry_frame hrec h1) (ih h)

theorem insertChunk_frame {g : GeoModel} {th : ℕ} {frozen : ItemId → Option Geom} :
    ∀ {fuel : ℕ} {s : DB} {items : Finset ItemId} {cell : CellId} {s' : DB},
      insertChunk g th frozen fuel s items cell = .ok s' → insFrame s s' := by
  intro fuel
  induction fuel with
  | zero =>
    intro s items cell s' h
    simp only [insertChunk] at h
    obtain rfl := by exact (Except.ok.injEq .. ▸ h :)
    exact insFrame_refl s
  | succ fuel ih =>
    intro s items cell s' h
    simp only [insertChunk] at h
    cases hch : g.childrenCells cell with
    | none =>
      rw [hch] at h
      obtain rfl := by exact (Except.ok.injEq .. ▸ h :)
      exact insFrame_refl s
    | some children =>
      rw [hch] at h
      simp only at h
      cases hcl : classifyAll g frozen (ascList items) children with
      | error e => rw [hcl] at h; exact absurd h (by simp)
      | ok cls =>
        rw [hcl] at h
        exact insFrame_trans (writeBellies_frame cls s)
          (processCells_frame (fun s its cc s' hr => ih hr) h)

theorem insertOne_frame {g : GeoModel} {frozen : ItemId → Option Geom} {s : DB} {i : ItemId}
    {s' : DB} (h : insertOne g frozen s i = .ok s') : insFrame s s' := by
  unfold insertOne at h
  cases hf : frozen i with
  | none => rw [hf] at h; exact absurd h (by simp)
  | some geom =>
    rw [hf] at h
    simp only at h
    cases he : g.explodeZero geom with
    | none => rw [he] at h; exact absurd h (by simp)
    | some p =>
      rw [he] at h
      obtain ⟨cs, bs⟩ := p
      simp only at h
      obtain rfl := by exact (Except.ok.injEq .. ▸ h :)
      have h1 : ∀ (l : List CellId) (t : DB),
          insFrame t (l.foldl (fun s c => putCell c (cellSet s c ∪ {i}) s) t) := by
        intro l
        induction l with
        | nil => exact fun t => insFrame_refl t
        | cons c rest ih =>
          intro t
          exact insFrame_trans (insFrame_putCell ..) (ih _)
      have h2 : ∀ (l : List CellId) (t : DB),
          insFrame t (l.foldl (fun s c => putBelly c (bellySet s c ∪ {i}) s) t) := by
        intro l
        induction l with
        | nil => exact fun t => insFrame_refl t
        | cons c rest ih =>
          intro t
          exact insFrame_trans (insFrame_putBelly ..) (ih _)
      exact insFrame_trans (h1 cs s) (h2 bs _)

theorem insertLevelZero_frame {g : GeoModel} {frozen : ItemId → Option Geom} :
    ∀ {l : List ItemId} {s s' : DB},
      insertLevelZero g frozen l s = .ok s' → insFrame s s' := by
  intro l
  induction l with
  | nil =>
    intro s s' h
    simp only [insertLevelZero] at h
    obtain rfl := by exact (Except.ok.injEq .. ▸ h :)
    exact insFrame_refl s
  | cons i rest ih =>
    intro s s' h
    simp only [insertLevelZero] at h
    cases h1 : insertOne g frozen s i with
    | error e => rw [h1] at h; exact absurd h (by simp)
    | ok s1 =>
      rw [h1] at h
      exact insFrame_trans (insertOne_frame h1) (ih h)

theorem buildLoop_frame {g : GeoModel} {th : ℕ} {frozen : ItemId → Option Geom}
    {inserted : Finset ItemId} :
    ∀ {l : List CellId} {s s' : DB},
      buildLoop g th frozen inserted l s = .ok s' → insFrame s s' := by
  intro l
  induction l with
  | nil =>
    intro s s' h
    simp only [buildLoop] at h
    obtain rfl := by exact (Except.ok.injEq .. ▸ h :)
    exact insFrame_refl s
  | cons c rest ih =>
    intro s s' h
    simp only [buildLoop] at h
    by_cases hc : (cellSet s c).card < th ∨ cellSet s c ∩ inserted = ∅
    · rw [if_pos hc] at h
      exact ih h
    · rw [if_neg hc] at h
      cases h1 : insertChunk g th frozen buildFuel s (cellSet s c) c with
      | error e => rw [h1] at h; exact absurd h (by simp)
      | ok s1 =>
        rw [h1] at h
        exact insFrame_trans (insertChunk_frame h1) (ih h)

/-! Item-freedom: an id absent from every cell-variant and belly-variant
bitmap stays absent through the insertion phases as long as it is not
among the ids being inserted. -/

/-- The id `i` appears in no cell-variant and no belly-variant bitmap. -/
def freeOf (s : DB) (i : ItemId) : Prop :=
  (∀ c, i ∉ cellSet s c) ∧ ∀ c, i ∉ bellySet s c

theorem freeOf_putCell {s : DB} {i : ItemId} (h : freeOf s i) {b : Finset ItemId}
    (hb : i ∉ b) (c : CellId) : freeOf (putCell c b s) i := by
  refine ⟨fun d => ?_, fun d => h.2 d⟩
  rw [cellSet_putCell]
  by_cases hd : d = c
  · simpa [hd] using hb
  · simpa [hd] using h.1 d

theorem freeOf_putBelly {s : DB} {i : ItemId} (h : freeOf s i) {b : Finset ItemId}
    (hb : i ∉ b) (c : CellId) : freeOf (putBelly c b s) i := by
  refine ⟨fun d => h.1 d, fun d => ?_⟩
  rw [bellySet_putBelly]
  by_cases hd : d = c
  · simpa [hd] using hb
  · simpa [hd] using h.2 d

theorem writeBellies_free {i : ItemId} :
    ∀ {cls : List (CellId × Finset ItemId × Finset ItemId)} {s : DB},
      (∀ e ∈ cls, i ∉ e.2.1) → freeOf s i → freeOf (writeBellies cls s) i := by
  intro cls
  induction cls with
  | nil => exact fun _ h => h
  | cons e rest ih =>
    intro s hcls h
    show freeOf (writeBellies rest _) i
    refine ih (fun e he => hcls e (List.mem_cons_of_mem _ he)) ?_
    by_cases he : e.2.1 = ∅
    · simpa [he] using h
    · simp only [if_neg he]
      refine freeOf_putBelly h ?_ _
      simp only [Finset.mem_union, not_or]
      exact ⟨h.2 e.1, hcls e (List.mem_cons_self ..)⟩

theorem processCellEntry_free {g : GeoModel} {th : ℕ} {frozen : ItemId → Option Geom}
    {rec : DB → Finset ItemId → CellId → Except SubErr DB} {i : ItemId}
    (hrec : ∀ s its cc s', freeOf s i → i ∉ its → rec s its cc = .ok s' → freeOf s' i)
    {s : DB} {c : CellId} {tc : Finset ItemId} {s' : DB}
    (hfree : freeOf s i) (htc : i ∉ tc)
    (h : processCellEntry g th frozen rec s c tc = .ok s') : freeOf s' i := by
  unfold processCellEntry at h
  by_cases h0 : tc = ∅
  · rw [if_pos h0] at h
    obtain rfl := by exact (Except.ok.injEq .. ▸ h :)
    exact hfree
  · rw [if_neg h0] at h
    simp only at h
    have hfree1 : freeOf (putCell c (cellSet s c ∪ tc) s) i :=
      freeOf_putCell hfree (by simp only [Finset.mem_union, not_or]; exact ⟨hfree.1 c, htc⟩) c
    by_cases h1 : th ≤ (cellSet s c).card
    · rw [if_pos h1] at h
      exact hrec _ _ _ _ hfree1 htc h
    · rw [if_neg h1] at h
      by_cases h2 : th ≤ (cellSet s c ∪ tc).card
      · rw [if_pos h2] at h
        cases h3 : classifyItems g frozen c (ascList (cellSet s c)) ∅ ∅ with
        | error e => rw [h3] at h; exact absurd h (by simp)
        | ok p =>
          rw [h3] at h
          obtain ⟨tbX, tcX⟩ := p
          simp only at h
          have hmem := classifyItems_mem h3 i
          have htbX : i ∉ tbX := by
            intro hi
            rcases hmem.1 hi with hh | hh
            · exact absurd hh (by simp)
            · exact hfree.1 c (mem_ascList.mp hh.1)
          have htcX : i ∉ tcX := by
            intro hi
            rcases hmem.2 hi with hh | hh
            · exact absurd hh (by simp)
            · exact hfree.1 c (mem_ascList.mp hh.1)
          refine hrec _ _ _ _ ?_ ?_ h
          · refine freeOf_putBelly hfree1 ?_ c
            simp only [Finset.mem_union, not_or]
            exact ⟨hfree1.2 c, htbX⟩
          · simp only [Finset.mem_union, not_or]
            exact ⟨htc, htcX⟩
      · rw [if_neg h2] at h
        obtain rfl := by exact (Except.ok.injEq .. ▸ h :)
        exact hfree1

theorem processCells_free {g : GeoModel} {th : ℕ} {frozen : ItemId → Option Geom}
    {rec : DB → Finset ItemId → CellId → Except SubErr DB} {i : ItemId}
    (hrec : ∀ s its cc s', freeOf s i → i ∉ its → rec s its cc = .ok s' → freeOf s' i) :
    ∀ {cls : List (CellId × Finset ItemId × Finset ItemId)} {s s' : DB},
      (∀ e ∈ cls, i ∉ e.2.2) → freeOf s i →
      processCells g th frozen rec cls s = .ok s' → freeOf s' i := by
  intro cls
  induction cls with
  | nil =>
    intro s s' _ hfree h
    simp only [processCells] at h
    obtain rfl := by exact (Except.ok.injEq .. ▸ h :)
    exact hfree
  | cons e rest ih =>
    intro s s' hcls hfree h
    simp only [processCells] at h
    cases h1 : processCellEntry g th frozen rec s e.1 e.2.2 with
    | error err => rw [h1] at h; exact absurd h (by simp)
    | ok s1 =>
      rw [h1] at h
      exact ih (fun e he => hcls e (List.mem_cons_of_mem _ he))
        (processCellEntry_free hrec hfree (hcls e (List.mem_cons_self ..)) h1) h

theorem insertChunk_free {g : GeoModel} {th : ℕ} {frozen : ItemId → Option Geom} {i : ItemId} :
    ∀ {fuel : ℕ} {s : DB} {items : Finset ItemId} {cell : CellId} {s' : DB},
      freeOf s i → i ∉ items →
      insertChunk g th frozen fuel s items cell = .ok s' → freeOf s' i := by
  intro fuel
  induction fuel with
  | zero =>
    intro s items cell s' hfree _ h
    simp only [insertChunk] at h
    obtain rfl := by exact (Except.ok.injEq .. ▸ h :)
    exact hfree
  | succ fuel ih =>
    intro s items cell s' hfree hitems h
    simp only [insertChunk] at h
    cases hch : g.childrenCells cell with
    | none =>
      rw [hch] at h
      obtain rfl := by exact (Except.ok.injEq .. ▸ h :)
      exact hfree
    | some children =>
      rw [hch] at h
      simp only at h
      cases hcl : classifyAll g frozen (ascList items) children with
      | error e => rw [hcl] at h; exact absurd h (by simp)
      | ok cls =>
        rw [hcl] at h
        have hm := classifyAll_mem hcl
        have htb : ∀ e ∈ cls, i ∉ e.2.1 := by
          intro e he hi
          exact hitems (mem_ascList.mp ((hm e he).1 i hi).1)
        have htc : ∀ e ∈ cls, i ∉ e.2.2 := by
          intro e he hi
          exact hitems (mem_ascList.mp ((hm e he).2 i hi).1)
        exact processCells_free (fun s its cc s' hf hni hr => ih hf hni hr) htc
          (writeBellies_free htb hfree) h

theorem insertOne_free {g : GeoModel} {frozen : ItemId → Option Geom} {s : DB}
    {i j : ItemId} {s' : DB} (hij : i ≠ j) (hfree : freeOf s i)
    (h : insertOne g frozen s j = .ok s') : freeOf s' i := by
  unfold insertOne at h
  cases hf : frozen j with
  | none => rw [hf] at h; exact absurd h (by simp)
  | some geom =>
    rw [hf] at h
    simp only at h
    cases he : g.explodeZero geom with
    | none => rw [he] at h; exact absurd h (by simp)
    | some p =>
      rw [he] at h
      obtain ⟨cs, bs⟩ := p
      simp only at h
      obtain rfl := by exact (Except.ok.injEq .. ▸ h :)
      have h1 : ∀ (l : List CellId) (t : DB), freeOf t i →
          freeOf (l.foldl (fun s c => putCell c (cellSet s c ∪ {j}) s) t) i := by
        intro l
        induction l with
        | nil => exact fun t ht => ht
        | cons c rest ih =>
          intro t ht
          refine ih _ (freeOf_putCell ht ?_ c)
          simp only [Finset.mem_union, Finset.mem_singleton, not_or]
          exact ⟨ht.1 c, hij⟩
      have h2 : ∀ (l : List CellId) (t : DB), freeOf t i →
          freeOf (l.foldl (fun s c => putBelly c (bellySet s c ∪ {j}) s) t) i := by
        intro l
        induction l with
        | nil => exact fun t ht => ht
        | cons c rest ih =>
          intro t ht
          refine ih _ (freeOf_putBelly ht ?_ c)
          simp only [Finset.mem_union, Finset.mem_singleton, not_or]
          exact ⟨ht.2 c, hij⟩
      exact h2 bs _ (h1 cs s hfree)

theorem insertLevelZero_free {g : GeoModel} {frozen : ItemId → Option Geom} {i : ItemId} :
    ∀ {l : List ItemId} {s s' : DB}, (∀ j ∈ l, i ≠ j) → freeOf s i →
      insertLevelZero g frozen l s = .ok s' → freeOf s' i := by
  intro l
  induction l with
  | nil =>
    intro s s' _ hfree h
    simp only [insertLevelZero] at h
    obtain rfl := by exact (Except.ok.injEq .. ▸ h :)
    exact hfree
  | cons j rest ih =>
    intro s s' hl hfree h
    simp only [insertLevelZero] at h
    cases h1 : insertOne g frozen s j with
    | error e => rw [h1] at h; exact absurd h (by simp)
    | ok s1 =>
      rw [h1] at h
      exact ih (fun j hj => hl j (List.mem_cons_of_mem _ hj))
        (insertOne_free (hl j (List.mem_cons_self ..)) hfree h1) h

theorem buildLoop_free {g : GeoModel} {th : ℕ} {frozen : ItemId → Option Geom}
    {inserted : Finset ItemId} {i : ItemId} :
    ∀ {l : List CellId} {s s' : DB}, freeOf s i →
      buildLoop g th frozen inserted l s = .ok s' → freeOf s' i := by
  intro l
  induction l with
  | nil =>
    intro s s' hfree h
    simp only [buildLoop] at h
    obtain rfl := by exact (Except.ok.injEq .. ▸ h :)
    exact hfree
  | cons c rest ih =>
    intro s s' hfree h
    simp only [buildLoop] at h
    by_cases hc : (cellSet s c).card < th ∨ cellSet s c ∩ inserted = ∅
    · rw [if_pos hc] at h
      exact ih hfree h
    · rw [if_neg hc] at h
      cases h1 : insertChunk g th frozen buildFuel s (cellSet s c) c with
      | error e => rw [h1] at h; exact absurd h (by simp)
      | ok s1 =>
        rw [h1] at h
        exact ih (insertChunk_free hfree (hfree.1 c) h1) h

theorem removeDeleted_free {del : Finset ItemId} {s : DB} {i : ItemId} (hi : i ∈ del) :
    freeOf (removeDeleted del s) i ∧ (removeDeleted del s).items i = none := by
  refine ⟨⟨fun c => ?_, fun c => ?_⟩, by simp [removeDeleted, hi]⟩
  · simp only [cellSet, removeDeleted]
    cases s.cell c with
    | none => simp
    | some b =>
      simp only
      by_cases hb : b \ del = ∅
      · simp [hb]
      · simp [hb, Finset.mem_sdiff, hi]
  · simp only [bellySet, removeDeleted]
    cases s.belly c with
    | none => simp
    | some b =>
      simp only
      by_cases hb : b \ del = ∅
      · simp [hb]
      · simp [hb, Finset.mem_sdiff, hi]

/-- Core of deletion completeness: a successful `build` on a state whose
updates table marks `i` as `Delete` (and not as `Insert`) leaves `i` in no
cell-variant bitmap, no belly-variant bitmap, and no items row. -/
theorem build_ok_free {g : GeoModel} {th : ℕ} {s s' : DB} {i : ItemId}
    (hdel : i ∈ s.updDel) (hins : i ∉ s.updIns)
    (h : build g th s = .ok s') :
    (∀ c, i ∉ cellSet s' c) ∧ (∀ c, i ∉ bellySet s' c) ∧ s'.items i = none := by
  unfold build at h
  split at h
  · exact absurd h (by simp)
  · simp only at h
    split at h
    next e heq => exact absurd h (by simp)
    next s1 heq =>
      split at h
      next e heq2 => exact absurd h (by simp)
      next s2 heq2 =>
        obtain rfl := by exact (Except.ok.injEq .. ▸ h :)
        have hrm := @removeDeleted_free s.updDel { s with updIns := ∅, updDel := ∅ } i hdel
        have hfree1 : freeOf s1 i := by
          refine insertLevelZero_free ?_ hrm.1 heq
          intro j hj hij
          exact hins (hij ▸ mem_ascList.mp hj)
        have hfree2 : freeOf s2 i := buildLoop_free hfree1 heq2
        refine ⟨fun c => hfree2.1 c, fun c => hfree2.2 c, ?_⟩
        have hf1 := (insertLevelZero_frame heq).1
        have hf2 := (buildLoop_frame heq2).1
        show s2.items i = none
        rw [hf2, hf1]
        exact hrm.2

/-- State used by the deletion-completeness witness: build after deleting
id 5 from the fresh database. -/
def exW1 : DB := (build g0 1 (deleteOp 5 emptyDB)).toOption.getD emptyDB

/-- C1. Deletion completeness: for every database state and every item id
`i`, after `delete(i)` followed by a successful `build()` with no
intervening `add(i)`, no persisted cell-variant bitmap and no persisted
belly-variant bitmap contains `i`, and the items table has no row for
`i`. -/
theorem claim1_deletion_completeness (g : GeoModel) (th : ℕ) (s : DB) (i : ItemId) {s' : DB}
    (h : build g th (deleteOp i s) = .ok s') :
    (∀ c, i ∉ cellSet s' c) ∧ (∀ c, i ∉ bellySet s' c) ∧ s'.items i = none :=
  build_ok_free (by simp [deleteOp]) (by simp [deleteOp]) h

/-- Witness for C1 at a concrete input: delete id 5 from the fresh
database under the toy geometry model and build. -/
theorem claim1_deletion_completeness_witness :
    build g0 1 (deleteOp 5 emptyDB) = .ok exW1 ∧
      5 ∉ cellSet exW1 0 ∧ 5 ∉ bellySet exW1 7 ∧ exW1.items 5 = none := by
  have h : build g0 1 (deleteOp 5 emptyDB) = .ok exW1 := rfl
  have hc := claim1_deletion_completeness g0 1 emptyDB 5 h
  exact ⟨h, hc.1 0, hc.2.1 7, hc.2.2⟩

/-- C10. Update-value decoding is partial: `UpdateType::bytes_decode` maps
the single byte 0 to `Insert` and the single byte 1 to `Delete`, and hits
the panic arm — modelled as `none`, with no error value in the codomain —
on every other input, including the empty slice and longer slices; a build
reading a corrupted updates-table value therefore aborts instead of
surfacing an `Error`. -/
theorem claim10_update_decode :
    bytesDecodeUpdateType [0] = some UpdateType.Insert ∧
      bytesDecodeUpdateType [1] = some UpdateType.Delete ∧
      ∀ bs : List ℕ, bs ≠ [0] → bs ≠ [1] → bytesDecodeUpdateType bs = none := by
  refine ⟨rfl, rfl, ?_⟩
  intro bs h0 h1
  match bs with
  | [] => rfl
  | [b] =>
    have hb0 : b ≠ 0 := fun h => h0 (by rw [h])
    have hb1 : b ≠ 1 := fun h => h1 (by rw [h])
    simp only [bytesDecodeUpdateType]
    rw [if_neg hb0, if_neg hb1]
  | _ :: _ :: _ => rfl

/-- Witness for C10 at concrete corrupted inputs: the empty slice, an
out-of-range byte and a two-byte slice all decode to the abort marker. -/
theorem claim10_update_decode_witness :
    ([] : List ℕ) ≠ [0] ∧ bytesDecodeUpdateType [] = none ∧
      bytesDecodeUpdateType [2] = none ∧ bytesDecodeUpdateType [0, 0] = none :=
  ⟨by decide, claim10_update_decode.2.2 [] (by decide) (by decide),
    claim10_update_decode.2.2 [2] (by decide) (by decide),
    claim10_update_decode.2.2 [0, 0] (by decide) (by decide)⟩

/-- C8. Write/index frame: `add`, `add_raw_zerometry` and `delete` leave
every cell-variant and belly-variant row and the metadata table unchanged;
`add` and `add_raw_zerometry` modify only `items[id]` and `updates[id]`,
and `delete` modifies only `updates[id]` — the cell hierarchy is mutated
only by `build`. -/
theorem claim8_write_frame (s : DB) (i : ItemId) (geom : Geom) :
    ((addOp i geom s).cell = s.cell ∧ (addOp i geom s).belly = s.belly ∧
      (addOp i geom s).metadata = s.metadata ∧
      (addOp i geom s).items i = some geom ∧
      updateRow (addOp i geom s) i = some UpdateType.Insert) ∧
    ((addRawOp i geom s).cell = s.cell ∧ (addRawOp i geom s).belly = s.belly ∧
      (addRawOp i geom s).metadata = s.metadata ∧
      (addRawOp i geom s).items i = some geom ∧
      updateRow (addRawOp i geom s) i = some UpdateType.Insert) ∧
    ((deleteOp i s).cell = s.cell ∧ (deleteOp i s).belly = s.belly ∧
      (deleteOp i s).metadata = s.metadata ∧ (deleteOp i s).items = s.items ∧
      updateRow (deleteOp i s) i = some UpdateType.Delete) ∧
    ∀ j, j ≠ i →
      (addOp i geom s).items j = s.items j ∧
      updateRow (addOp i geom s) j = updateRow s j ∧
      (addRawOp i geom s).items j = s.items j ∧
      updateRow (addRawOp i geom s) j = updateRow s j ∧
      updateRow (deleteOp i s) j = updateRow s j := by
  refine ⟨⟨rfl, rfl, rfl, by simp [addOp], by simp [updateRow, addOp]⟩,
    ⟨rfl, rfl, rfl, by simp [addRawOp], by simp [updateRow, addRawOp]⟩,
    ⟨rfl, rfl, rfl, rfl, by simp [updateRow, deleteOp]⟩, ?_⟩
  intro j hij
  refine ⟨by simp [addOp, hij], ?_, by simp [addRawOp, hij], ?_, ?_⟩
  · simp [updateRow, addOp, Finset.mem_insert, Finset.mem_erase, hij]
  · simp [updateRow, addRawOp, Finset.mem_insert, Finset.mem_erase, hij]
  · simp [updateRow, deleteOp, Finset.mem_insert, Finset.mem_erase, hij]

/-- Witness for C8 at a concrete input: add id 1 and delete id 1 on the
fresh database, observing id 2 and the cell table. -/
theorem claim8_write_frame_witness :
    (2 : ItemId) ≠ 1 ∧ (addOp 1 0 emptyDB).cell = emptyDB.cell ∧
      updateRow (addOp 1 0 emptyDB) 2 = updateRow emptyDB 2 ∧
      (deleteOp 1 emptyDB).items = emptyDB.items :=
  ⟨by decide, (claim8_write_frame emptyDB 1 0).1.1,
    ((claim8_write_frame emptyDB 1 0).2.2.2 2 (by decide)).2.1,
    (claim8_write_frame emptyDB 1 0).2.2.1.2.2.2.1⟩

/-- A state carrying a stale persisted version, used by the version-gate
witness. -/
def exBadVersion : DB := { emptyDB with metadata := some (9, 9, 9) }

/-- C3. Version gate: `build` fails with `VersionMismatchOnBuild` carrying
the persisted version exactly when the metadata table holds a version
different from the code's current version — the gate is the first step of
`build`, so a mismatch aborts before any table is modified — and an absent
metadata row reads as the current version, letting the build proceed. -/
theorem claim3_version_gate (g : GeoModel) (th : ℕ) (s : DB) :
    (s.metadata = none → getVersion s = currentVersion) ∧
      ∀ v, build g th s = .error (.versionMismatchOnBuild v) ↔
        s.metadata = some v ∧ v ≠ currentVersion := by
  constructor
  · intro h
    simp [getVersion, h]
  · intro v
    constructor
    · intro h
      unfold build at h
      split at h
      next hv =>
        have h2 : CError.versionMismatchOnBuild (getVersion s) =
            CError.versionMismatchOnBuild v := (Except.error.injEq .. ▸ h :)
        have hgv : getVersion s = v := (CError.versionMismatchOnBuild.injEq .. ▸ h2 :)
        cases hm : s.metadata with
        | none => exact absurd (by simp [getVersion, hm]) hv
        | some w =>
          have hw : w = v := by
            rw [← hgv]
            simp [getVersion, hm]
          subst hw
          refine ⟨rfl, ?_⟩
          rw [← hgv]
          exact hv
      next hv =>
        simp only at h
        split at h
        next e heq =>
          exact absurd ((Except.error.injEq .. ▸ h :)) (by simp)
        next s1 heq =>
          split at h
          next e heq2 => exact absurd ((Except.error.injEq .. ▸ h :)) (by simp)
          next s2 heq2 => exact absurd h (by simp)
    · rintro ⟨hm, hv⟩
      have hg : getVersion s = v := by simp [getVersion, hm]
      unfold build
      rw [if_pos (by rw [hg]; exact hv), hg]

/-- Witness for C3 at concrete inputs: the fresh database has no metadata
row and reads as the current version, while a stale persisted version
makes `build` fail with `VersionMismatchOnBuild` carrying it. -/
theorem claim3_version_gate_witness :
    emptyDB.metadata = none ∧ getVersion emptyDB = currentVersion ∧
      build g0 1 exBadVersion = .error (.versionMismatchOnBuild (9, 9, 9)) :=
  ⟨rfl, (claim3_version_gate g0 1 emptyDB).1 rfl,
    ((claim3_version_gate g0 1 exBadVersion).2 (9, 9, 9)).mpr ⟨rfl, by decide⟩⟩

/-! No cell-variant row is ever written empty: deletion processing removes
rows it empties and the insertion phases only write non-empty unions into
cell rows. The belly-variant rows do not share this property — the
just-crossed-threshold path writes `belly[C]` unconditionally. -/

/-- No persisted cell-variant row holds the empty bitmap. -/
def noEmptyCell (s : DB) : Prop := ∀ c, s.cell c ≠ some ∅

theorem noEmptyCell_putCell {s : DB} {b : Finset ItemId} (h : noEmptyCell s)
    (hb : b ≠ ∅) (c : CellId) : noEmptyCell (putCell c b s) := by
  intro d
  rw [cell_putCell]
  by_cases hd : d = c
  · simpa [hd] using fun hcon => hb hcon
  · simpa [hd] using h d

theorem noEmptyCell_putBelly {s : DB} {b : Finset ItemId} (h : noEmptyCell s) (c : CellId) :
    noEmptyCell (putBelly c b s) := h

theorem noEmptyCell_writeBellies {cls : List (CellId × Finset ItemId × Finset ItemId)}
    {s : DB} (h : noEmptyCell s) : noEmptyCell (writeBellies cls s) := by
  intro c
  rw [show (writeBellies cls s).cell = s.cell from writeBellies_cell cls s]
  exact h c

theorem processCellEntry_noEmptyCell {g : GeoModel} {th : ℕ} {frozen : ItemId → Option Geom}
    {rec : DB → Finset ItemId → CellId → Except SubErr DB}
    (hrec : ∀ s its cc s', noEmptyCell s → rec s its cc = .ok s' → noEmptyCell s')
    {s : DB} {c : CellId} {tc : Finset ItemId} {s' : DB}
    (hP : noEmptyCell s)
    (h : processCellEntry g th frozen rec s c tc = .ok s') : noEmptyCell s' := by
  unfold processCellEntry at h
  by_cases h0 : tc = ∅
  · rw [if_pos h0] at h
    obtain rfl := by exact (Except.ok.injEq .. ▸ h :)
    exact hP
  · rw [if_neg h0] at h
    simp only at h
    have hP1 : noEmptyCell (putCell c (cellSet s c ∪ tc) s) := by
      refine noEmptyCell_putCell hP (fun hcon => h0 ?_) c
      exact (Finset.union_eq_empty.mp hcon).2
    by_cases h1 : th ≤ (cellSet s c).card
    · rw [if_pos h1] at h
      exact hrec _ _ _ _ hP1 h
    · rw [if_neg h1] at h
      by_cases h2 : th ≤ (cellSet s c ∪ tc).card
      · rw [if_pos h2] at h
        cases h3 : classifyItems g frozen c (ascList (cellSet s c)) ∅ ∅ with
        | error e => rw [h3] at h; exact absurd h (by simp)
        | ok p =>
          rw [h3] at h
          obtain ⟨tbX, tcX⟩ := p
          simp only at h
          exact hrec _ _ _ _ (noEmptyCell_putBelly hP1 c) h
      · rw [if_neg h2] at h
        obtain rfl := by exact (Except.ok.injEq .. ▸ h :)
        exact hP1

theorem processCells_noEmptyCell {g : GeoModel} {th : ℕ} {frozen : ItemId → Option Geom}
    {rec : DB → Finset ItemId → CellId → Except SubErr DB}
    (hrec : ∀ s its cc s', noEmptyCell s → rec s its cc = .ok s' → noEmptyCell s') :
    ∀ {cls : List (CellId × Finset ItemId × Finset ItemId)} {s s' : DB},
      noEmptyCell s → processCells g th frozen rec cls s = .ok s' → noEmptyCell s' := by
  intro cls
  induction cls with
  | nil =>
    intro s s' hP h
    simp only [processCells] at h
    obtain rfl := by exact (Except.ok.injEq .. ▸ h :)
    exact hP
  | cons e rest ih =>
    intro s s' hP h
    simp only [processCells] at h
    cases h1 : processCellEntry g th frozen rec s e.1 e.2.2 with
    | error err => rw [h1] at h; exact absurd h (by simp)
    | ok s1 =>
      rw [h1] at h
      exact ih (processCellEntry_noEmptyCell hrec hP h1) h

theorem insertChunk_noEmptyCell {g : GeoModel} {th : ℕ} {frozen : ItemId → Option Geom} :
    ∀ {fuel : ℕ} {s : DB} {items : Finset ItemId} {cell : CellId} {s' : DB},
      noEmptyCell s → insertChunk g th frozen fuel s items cell = .ok s' → noEmptyCell s' := by
  intro fuel
  induction fuel with
  | zero =>
    intro s items cell s' hP h
    simp only [insertChunk] at h
    obtain rfl := by exact (Except.ok.injEq .. ▸ h :)
    exact hP
  | succ fuel ih =>
    intro s items cell s' hP h
    simp only [insertChunk] at h
    cases hch : g.childrenCells cell with
    | none =>
      rw [hch] at h
      obtain rfl := by exact (Except.ok.injEq .. ▸ h :)
      exact hP
    | some children =>
      rw [hch] at h
      simp only at h
      cases hcl : classifyAll g frozen (ascList items) children with
      | error e => rw [hcl] at h; exact absurd h (by simp)
      | ok cls =>
        rw [hcl] at h
        exact processCells_noEmptyCell (fun s its cc s' hp hr => ih hp hr)
          (noEmptyCell_writeBellies hP) h

theorem insertOne_noEmptyCell {g : GeoModel} {frozen : ItemId → Option Geom} {s : DB}
    {i : ItemId} {s' : DB} (hP : noEmptyCell s) (h : insertOne g frozen s i = .ok s') :
    noEmptyCell s' := by
  unfold insertOne at h
  cases hf : frozen i with
  | none => rw [hf] at h; exact absurd h (by simp)
  | some geom =>
    rw [hf] at h
    simp only at h
    cases he : g.explodeZero geom with
    | none => rw [he] at h; exact absurd h (by simp)
    | some p =>
      rw [he] at h
      obtain ⟨cs, bs⟩ := p
      simp only at h
      obtain rfl := by exact (Except.ok.injEq .. ▸ h :)
      have h1 : ∀ (l : List CellId) (t : DB), noEmptyCell t →
          noEmptyCell (l.foldl (fun s c => putCell c (cellSet s c ∪ {i}) s) t) := by
        intro l
        induction l with
        | nil => exact fun t ht => ht
        | cons c rest ih =>
          intro t ht
          refine ih _ (noEmptyCell_putCell ht ?_ c)
          intro hcon
          exact absurd (Finset.union_eq_empty.mp hcon).2 (Finset.singleton_ne_empty i)
      have h2 : ∀ (l : List CellId) (t : DB), noEmptyCell t →
          noEmptyCell (l.foldl (fun s c => putBelly c (bellySet s c ∪ {i}) s) t) := by
        intro l
        induction l with
        | nil => exact fun t ht => ht
        | cons c rest ih =>
          intro t ht
          exact ih _ (noEmptyCell_putBelly ht c)
      exact h2 bs _ (h1 cs s hP)

theorem insertLevelZero_noEmptyCell {g : GeoModel} {frozen : ItemId → Option Geom} :
    ∀ {l : List ItemId} {s s' : DB}, noEmptyCell s →
      insertLevelZero g frozen l s = .ok s' → noEmptyCell s' := by
  intro l
  induction l with
  | nil =>
    intro s s' hP h
    simp only [insertLevelZero] at h
    obtain rfl := by exact (Except.ok.injEq .. ▸ h :)
    exact hP
  | cons i rest ih =>
    intro s s' hP h
    simp only [insertLevelZero] at h
    cases h1 : insertOne g frozen s i with
    | error e => rw [h1] at h; exact absurd h (by simp)
    | ok s1 =>
      rw [h1] at h
      exact ih (insertOne_noEmptyCell hP h1) h

theorem buildLoop_noEmptyCell {g : GeoModel} {th : ℕ} {frozen : ItemId → Option Geom}
    {inserted : Finset ItemId} :
    ∀ {l : List CellId} {s s' : DB}, noEmptyCell s →
      buildLoop g th frozen inserted l s = .ok s' → noEmptyCell s' := by
  intro l
  induction l with
  | nil =>
    intro s s' hP h
    simp only [buildLoop] at h
    obtain rfl := by exact (Except.ok.injEq .. ▸ h :)
    exact hP
  | cons c rest ih =>
    intro s s' hP h
    simp only [buildLoop] at h
    by_cases hc : (cellSet s c).card < th ∨ cellSet s c ∩ inserted = ∅
    · rw [if_pos hc] at h
      exact ih hP h
    · rw [if_neg hc] at h
      cases h1 : insertChunk g th frozen buildFuel s (cellSet s c) c with
      | error e => rw [h1] at h; exact absurd h (by simp)
      | ok s1 =>
        rw [h1] at h
        exact ih (insertChunk_noEmptyCell hP h1) h

theorem removeDeleted_noEmptyCell (del : Finset ItemId) (s : DB) :
    noEmptyCell (removeDeleted del s) := by
  intro c
  simp only [removeDeleted]
  cases s.cell c with
  | none => simp
  | some b =>
    simp only
    by_cases hb : b \ del = ∅
    · simp [hb]
    · simp [hb]

theorem removeDeleted_noEmptyBelly (del : Finset ItemId) (s : DB) (c : CellId) :
    (removeDeleted del s).belly c ≠ some ∅ := by
  simp only [removeDeleted]
  cases s.belly c with
  | none => simp
  | some b =>
    simp only
    by_cases hb : b \ del = ∅
    · simp [hb]
    · simp [hb]

/-- Shape facts about a successful build: the metadata row holds the
current version, the updates table is drained, and no cell-variant row is
empty. -/
theorem build_ok_shape {g : GeoModel} {th : ℕ} {s s' : DB}
    (h : build g th s = .ok s') :
    s'.metadata = some currentVersion ∧ s'.updIns = ∅ ∧ s'.updDel = ∅ ∧ noEmptyCell s' := by
  unfold build at h
  split at h
  · exact absurd h (by simp)
  · simp only at h
    split at h
    next e heq => exact absurd h (by simp)
    next s1 heq =>
      split at h
      next e heq2 => exact absurd h (by simp)
      next s2 heq2 =>
        obtain rfl := by exact (Except.ok.injEq .. ▸ h :)
        have hf1 := insertLevelZero_frame heq
        have hf2 := buildLoop_frame heq2
        refine ⟨rfl, ?_, ?_, ?_⟩
        · show s2.updIns = ∅
          rw [hf2.2.1, hf1.2.1]
          rfl
        · show s2.updDel = ∅
          rw [hf2.2.2.1, hf1.2.2.1]
          rfl
        · intro c
          show s2.cell c ≠ some ∅
          refine buildLoop_noEmptyCell ?_ heq2 c
          refine insertLevelZero_noEmptyCell ?_ heq
          exact removeDeleted_noEmptyCell _ _

theorem buildLoop_inserted_empty (g : GeoModel) (th : ℕ) (frozen : ItemId → Option Geom) :
    ∀ (l : List CellId) (s : DB), buildLoop g th frozen ∅ l s = .ok s := by
  intro l
  induction l with
  | nil => intro s; rfl
  | cons c rest ih =>
    intro s
    simp only [buildLoop]
    rw [if_pos (Or.inr (Finset.inter_empty _))]
    exact ih s

/-- Counterexample to C4 as stated. Running `build` twice on the toy model
does not leave the tables as one run does: the first build persists an
empty belly row at cell 7 through the just-crossed-threshold path of
`insert_chunk_of_items_recursively`, and the deletion scan of the second
build deletes that row, so the states after one and after two builds
differ on the belly table. -/
theorem claim4_build_idempotence_counterexample :
    build g0 1 exDB0 = .ok exDB1 ∧ build g0 1 exDB1 = .ok exDB2 ∧
      exDB1.belly 7 = some ∅ ∧ exDB2.belly 7 = none :=
  ⟨rfl, rfl, by decide, by decide⟩

/-- C4, amended: a second `build` with no intervening write succeeds and
leaves the items table, the updates table, the metadata table and every
cell-variant row exactly as the first build did; it differs only by
deleting the belly-variant rows whose bitmap is empty (rows the
just-crossed-threshold path of the first build may have written). -/
theorem claim4_build_second_pass {g : GeoModel} {th : ℕ} {s s₁ : DB}
    (h : build g th s = .ok s₁) :
    build g th s₁ =
      .ok { s₁ with belly := fun c => if s₁.belly c = some ∅ then none else s₁.belly c } := by
  obtain ⟨hm, hI, hD, hc⟩ := build_ok_shape h
  have hsA : { s₁ with updIns := (∅ : Finset ItemId), updDel := (∅ : Finset ItemId) } = s₁ :=
    DB.ext rfl rfl rfl hI.symm hD.symm rfl
  have hgv : ¬getVersion s₁ ≠ currentVersion := by simp [getVersion, hm]
  have hrm : removeDeleted ∅ s₁ =
      { s₁ with belly := fun c => if s₁.belly c = some ∅ then none else s₁.belly c } := by
    unfold removeDeleted
    refine DB.ext (funext fun i => ?_) (funext fun c => ?_) (funext fun c => ?_) rfl rfl rfl
    · simp
    · show (match s₁.cell c with
        | none => none
        | some b => if b \ ∅ = ∅ then none else some (b \ ∅)) = s₁.cell c
      cases hcc : s₁.cell c with
      | none => rfl
      | some b =>
        have hb : ¬b = ∅ := fun hcon => hc c (by rw [hcc, hcon])
        simp [Finset.sdiff_empty, hb]
    · show (match s₁.belly c with
        | none => none
        | some b => if b \ ∅ = ∅ then none else some (b \ ∅)) =
          if s₁.belly c = some ∅ then none else s₁.belly c
      cases hbc : s₁.belly c with
      | none => rfl
      | some b =>
        by_cases hb : b = ∅
        · subst hb
          simp
        · simp [Finset.sdiff_empty, hb]
  unfold build
  rw [if_neg hgv]
  simp only
  rw [hI, hD, hsA, hrm, ascList_empty]
  simp only [insertLevelZero]
  rw [buildLoop_inserted_empty]
  exact congrArg Except.ok (DB.ext rfl rfl rfl hI hD hm.symm)

/-- Witness for the amended C4 at a concrete input: the second build of
the toy database removes exactly the empty belly row. -/
theorem claim4_build_second_pass_witness :
    build g0 1 exDB0 = .ok exDB1 ∧
      build g0 1 exDB1 =
        .ok { exDB1 with belly := fun c => if exDB1.belly c = some ∅ then none else exDB1.belly c } :=
  ⟨rfl, claim4_build_second_pass (show build g0 1 exDB0 = .ok exDB1 from rfl)⟩

/-- Every state reachable through the public API has no empty cell-variant
row. -/
theorem reachable_noEmptyCell {g : GeoModel} {th : ℕ} {s : DB}
    (h : Reachable g th s) : noEmptyCell s := by
  induction h with
  | empty => intro c; simp [emptyDB]
  | add i geom h ih => exact ih
  | addRaw i geom h ih => exact ih
  | delete i h ih => exact ih
  | clear h ih => intro c; simp [clearOp, emptyDB]
  | build h hb ih => exact (build_ok_shape hb).2.2.2

/-- Counterexample to C6 as stated. The state reached by adding one item
to the fresh database and building it under the toy model persists the
belly-variant row of cell 7 with an empty bitmap: the just-crossed-
threshold path of `insert_chunk_of_items_recursively` reads the absent
belly row, ORs in the (empty) reclassified belly set, and writes the
result back unconditionally. The repository's own test snapshots show the
same empty rows (`RoaringBitmap<[]>` under `# Belly Cells`). -/
theorem claim6_empty_row_counterexample :
    Reachable g0 1 exDB1 ∧ exDB1.belly 7 = some ∅ := by
  refine ⟨Reachable.build (Reachable.add 0 0 Reachable.empty) rfl, ?_⟩
  decide

/-- C6, amended: in every reachable database state, every persisted
cell-variant row holds a non-empty bitmap, and the deletion scan never
leaves an empty row of either variant (it deletes any row it empties,
including rows that were already empty); belly-variant rows, however, can
be persisted empty by the just-crossed-threshold path of the recursive
split. -/
theorem claim6_cell_rows_nonempty {g : GeoModel} {th : ℕ} {s : DB}
    (h : Reachable g th s) :
    (∀ c, s.cell c ≠ some ∅) ∧
      ∀ (del : Finset ItemId) (t : DB) (c : CellId),
        (removeDeleted del t).cell c ≠ some ∅ ∧ (removeDeleted del t).belly c ≠ some ∅ :=
  ⟨reachable_noEmptyCell h,
    fun del t c => ⟨removeDeleted_noEmptyCell del t c, removeDeleted_noEmptyBelly del t c⟩⟩

/-- Witness for the amended C6 at a concrete input: the reachable state
`exDB1` has no empty cell-variant row at cell 7, and a concrete deletion
scan leaves no empty row. -/
theorem claim6_cell_rows_nonempty_witness :
    Reachable g0 1 exDB1 ∧ exDB1.cell 7 ≠ some ∅ ∧
      (removeDeleted {0} exDB1).belly 7 ≠ some ∅ := by
  have hr : Reachable g0 1 exDB1 := Reachable.build (Reachable.add 0 0 Reachable.empty) rfl
  exact ⟨hr, (claim6_cell_rows_nonempty hr).1 7,
    ((claim6_cell_rows_nonempty hr).2 {0} exDB1 7).2⟩

/-- C7. Just-crossed-threshold reclassification: when a child cell `c`
receives new ids `tc`, the previously stored bitmap `original` had fewer
than `threshold` elements, and `original ∪ tc` reaches the threshold,
`insert_chunk_of_items_recursively` writes `original ∪ tc` into the cell
row, ORs every item of `original` whose geometry strictly contains `c`'s
polygon into `belly[c]`, adds every item of `original` with some other
relation to the id set, and recurses on `c` with that enlarged id set. -/
theorem claim7_just_crossed (g : GeoModel) (th : ℕ) (frozen : ItemId → Option Geom)
    (fuel : ℕ) (s : DB) (c : CellId) (tc : Finset ItemId)
    (h0 : tc ≠ ∅)
    (h1 : (cellSet s c).card < th)
    (h2 : th ≤ (cellSet s c ∪ tc).card)
    (hfroz : ∀ i ∈ cellSet s c, (frozen i).isSome) :
    processCellEntry g th frozen (insertChunk g th frozen fuel) s c tc =
      insertChunk g th frozen fuel
        (putBelly c
          (bellySet (putCell c (cellSet s c ∪ tc) s) c ∪
            (cellSet s c).filter (fun i => strictB g frozen c i))
          (putCell c (cellSet s c ∪ tc) s))
        (tc ∪ (cellSet s c).filter (fun i => touchB g frozen c i)) c := by
  unfold processCellEntry
  rw [if_neg h0]
  simp only
  rw [if_neg (not_le.mpr h1), if_pos h2,
    classifyItems_eq_filter ∅ ∅ (fun i hi => hfroz i (mem_ascList.mp hi))]
  simp only [Finset.empty_union, ascList_toFinset]

/-- Witness for C7 at a concrete input: the empty original bitmap of cell
7 together with the fresh id set `{0}` crosses threshold 1. -/
theorem claim7_just_crossed_witness :
    ({0} : Finset ItemId) ≠ ∅ ∧ (cellSet emptyDB 7).card < 1 ∧
      1 ≤ (cellSet emptyDB 7 ∪ {0}).card ∧
      processCellEntry g0 1 (fun j => if j = 0 then some 0 else none)
          (insertChunk g0 1 (fun j => if j = 0 then some 0 else none) 15) emptyDB 7 {0} =
        insertChunk g0 1 (fun j => if j = 0 then some 0 else none) 15
          (putBelly 7
            (bellySet (putCell 7 (cellSet emptyDB 7 ∪ {0}) emptyDB) 7 ∪
              (cellSet emptyDB 7).filter
                (fun i => strictB g0 (fun j => if j = 0 then some 0 else none) 7 i))
            (putCell 7 (cellSet emptyDB 7 ∪ {0}) emptyDB))
          ({0} ∪ (cellSet emptyDB 7).filter
            (fun i => touchB g0 (fun j => if j = 0 then some 0 else none) 7 i)) 7 := by
  refine ⟨by decide, by decide, by decide, ?_⟩
  exact claim7_just_crossed g0 1 (fun j => if j = 0 then some 0 else none) 15 emptyDB 7 {0}
    (by decide) (by decide) (by decide)
    (fun i hi => absurd hi (by simp [cellSet, emptyDB]))

/-! Reader: characterisation of the BFS accumulators over the explored
set, and totality of the candidate verification. -/

/-- Union of the bitmaps of the explored cells whose polygon the
(densified) query fully contains. -/
def containedUnion (g : GeoModel) (s : DB) (qd : Query) (ex : Finset CellId) :
    Finset ItemId :=
  ex.sup (fun c => if g.qContains qd c = true then cellSet s c else ∅)

/-- Union of the bitmaps of the explored cells that were routed to the
double-check set: the query intersects them without containing them and
the cell is a leaf (below threshold or at resolution 15). -/
def doubleCheckUnion (g : GeoModel) (th : ℕ) (s : DB) (qd : Query) (ex : Finset CellId) :
    Finset ItemId :=
  ex.sup (fun c =>
    if g.qContains qd c = false ∧ g.qIntersects qd c = true ∧
        ((cellSet s c).card < th ∨ g.res c = 15) then cellSet s c else ∅)

theorem containedUnion_insert (g : GeoModel) (s : DB) (qd : Query) (ex : Finset CellId)
    (c : CellId) :
    containedUnion g s qd (insert c ex) =
      (if g.qContains qd c = true then cellSet s c else ∅) ∪ containedUnion g s qd ex := by
  unfold containedUnion
  rw [Finset.sup_insert]
  rfl

theorem doubleCheckUnion_insert (g : GeoModel) (th : ℕ) (s : DB) (qd : Query)
    (ex : Finset CellId) (c : CellId) :
    doubleCheckUnion g th s qd (insert c ex) =
      (if g.qContains qd c = false ∧ g.qIntersects qd c = true ∧
          ((cellSet s c).card < th ∨ g.res c = 15) then cellSet s c else ∅) ∪
        doubleCheckUnion g th s qd ex := by
  unfold doubleCheckUnion
  rw [Finset.sup_insert]
  rfl

theorem mem_doubleCheckUnion {g : GeoModel} {th : ℕ} {s : DB} {qd : Query}
    {ex : Finset CellId} {i : ItemId} (h : i ∈ doubleCheckUnion g th s qd ex) :
    ∃ c, i ∈ cellSet s c := by
  obtain ⟨c, _, hic⟩ := Finset.mem_sup.mp h
  by_cases hcond : g.qContains qd c = false ∧ g.qIntersects qd c = true ∧
      ((cellSet s c).card < th ∨ g.res c = 15)
  · rw [if_pos hcond] at hic
    exact ⟨c, hic⟩
  · rw [if_neg hcond] at hic
    exact absurd hic (Finset.not_mem_empty i)

/-- Invariant of the BFS loop: whenever the loop completes without a
tiler failure, the returned accumulator is the union of the bitmaps of
the explored fully-contained cells, and the double-check accumulator the
union over the explored leaf cells the query merely intersects. -/
theorem bfsGo_spec (g : GeoModel) (th : ℕ) (s : DB) (qd : Query) :
    ∀ (fuel : ℕ) (queue : List CellId) (ex : Finset CellId) (ret dc : Finset ItemId)
      (tl : Bool) (t : Finset CellId × Finset ItemId × Finset ItemId),
      ret = containedUnion g s qd ex → dc = doubleCheckUnion g th s qd ex →
      bfsGo g th s qd fuel queue ex ret dc tl = some t →
      t.2.1 = containedUnion g s qd t.1 ∧ t.2.2 = doubleCheckUnion g th s qd t.1 := by
  intro fuel
  induction fuel with
  | zero =>
    intro queue ex ret dc tl t h1 h2 hgo
    simp only [bfsGo] at hgo
    obtain rfl := by exact (Option.some.injEq .. ▸ hgo :)
    exact ⟨h1, h2⟩
  | succ fuel ih =>
    intro queue ex ret dc tl t h1 h2 hgo
    match queue with
    | [] =>
      simp only [bfsGo] at hgo
      obtain rfl := by exact (Option.some.injEq .. ▸ hgo :)
      exact ⟨h1, h2⟩
    | c :: rest =>
      simp only [bfsGo] at hgo
      by_cases hc : c ∈ ex
      · rw [if_pos hc] at hgo
        exact ih rest ex ret dc tl t h1 h2 hgo
      · rw [if_neg hc] at hgo
        cases hcc : s.cell c with
        | none =>
          rw [hcc] at hgo
          simp only at hgo
          have hcs : cellSet s c = ∅ := by simp [cellSet, hcc]
          refine ih rest (insert c ex) ret dc tl t ?_ ?_ hgo
          · rw [h1, containedUnion_insert]
            by_cases hq : g.qContains qd c = true <;> simp [hq, hcs]
          · rw [h2, doubleCheckUnion_insert]
            by_cases hcond : g.qContains qd c = false ∧ g.qIntersects qd c = true ∧
                ((cellSet s c).card < th ∨ g.res c = 15)
            · simp [hcond, hcs]
            · simp [if_neg hcond]
        | some items =>
          rw [hcc] at hgo
          simp only at hgo
          have hcs : cellSet s c = items := by simp [cellSet, hcc]
          by_cases hq : g.qContains qd c = true
          · rw [if_pos hq] at hgo
            refine ih rest (insert c ex) (ret ∪ items) dc tl t ?_ ?_ hgo
            · rw [h1, containedUnion_insert, if_pos hq, hcs, Finset.union_comm]
            · rw [h2, doubleCheckUnion_insert, if_neg (by simp [hq]), Finset.empty_union]
          · rw [if_neg hq] at hgo
            have hqf : g.qContains qd c = false := by
              cases hqq : g.qContains qd c
              · rfl
              · exact absurd hqq hq
            by_cases hi : g.qIntersects qd c = true
            · rw [if_pos hi] at hgo
              by_cases hcase : items.card < th ∨ g.res c = 15
              · rw [if_pos hcase] at hgo
                refine ih rest (insert c ex) ret (dc ∪ items) tl t ?_ ?_ hgo
                · rw [h1, containedUnion_insert, if_neg (by simp [hqf]), Finset.empty_union]
                · rw [h2, doubleCheckUnion_insert,
                    if_pos ⟨hqf, hi, by rwa [hcs]⟩, hcs, Finset.union_comm]
              · rw [if_neg hcase] at hgo
                cases htile : (if tl then g.tileCellNext c
                    else g.tileQueryAt qd (g.res c + 1)) with
                | none => rw [htile] at hgo; exact absurd hgo (by simp)
                | some newCells =>
                  rw [htile] at hgo
                  simp only at hgo
                  refine ih _ (insert c ex) ret dc _ t ?_ ?_ hgo
                  · rw [h1, containedUnion_insert, if_neg (by simp [hqf]),
                      Finset.empty_union]
                  · rw [h2, doubleCheckUnion_insert,
                      if_neg (by rw [hcs]; exact fun hcon => hcase hcon.2.2),
                      Finset.empty_union]
            · rw [if_neg hi] at hgo
              refine ih rest (insert c ex) ret dc tl t ?_ ?_ hgo
              · rw [h1, containedUnion_insert, if_neg (by simp [hqf]), Finset.empty_union]
              · rw [h2, doubleCheckUnion_insert,
                  if_neg (fun hcon => hi hcon.2.1), Finset.empty_union]

/-- The BFS phase satisfies the invariant whenever it succeeds. -/
theorem inShapeBfs_spec {g : GeoModel} {th : ℕ} {s : DB} {q : Query} {fuel : ℕ}
    {t : Finset CellId × Finset ItemId × Finset ItemId}
    (hb : inShapeBfs g th s q fuel = some t) :
    t.2.1 = containedUnion g s (g.densify q) t.1 ∧
      t.2.2 = doubleCheckUnion g th s (g.densify q) t.1 := by
  unfold inShapeBfs at hb
  simp only at hb
  cases htz : g.tileZero (g.densify q) with
  | none => rw [htz] at hb; exact absurd hb (by simp)
  | some seeds =>
    rw [htz] at hb
    exact bfsGo_spec g th s (g.densify q) fuel seeds ∅ ∅ ∅ false t
      (by simp [containedUnion]) (by simp [doubleCheckUnion]) hb

/-- Bool predicate of the candidate-verification loop: the stored geometry
of the candidate has at least one relation bit set against the densified
query (false when no geometry is stored). -/
def candidateRel (g : GeoModel) (s : DB) (qd : Query) (i : ItemId) : Bool :=
  match s.items i with
  | some geom => g.anyRel geom qd
  | none => false

theorem verifyCandidates_ok {g : GeoModel} {s : DB} {qd : Query} :
    ∀ {l : List ItemId} {acc r : Finset ItemId},
      verifyCandidates g s qd l acc = some r →
      r = acc ∪ l.toFinset.filter (fun i => candidateRel g s qd i) := by
  intro l
  induction l with
  | nil =>
    intro acc r h
    simp only [verifyCandidates] at h
    obtain rfl := by exact (Option.some.injEq .. ▸ h :)
    simp
  | cons i rest ih =>
    intro acc r h
    simp only [verifyCandidates] at h
    cases hi : s.items i with
    | none => rw [hi] at h; exact absurd h (by simp)
    | some geom =>
      rw [hi] at h
      have hr := ih h
      have hcand : candidateRel g s qd i = g.anyRel geom qd := by
        simp [candidateRel, hi]
      by_cases ha : g.anyRel geom qd = true
      · rw [if_pos ha] at hr
        rw [hr]
        ext j
        by_cases hij : j = i
        · subst hij
          simp [hcand, ha]
        · simp only [Finset.mem_union, Finset.mem_insert, Finset.mem_filter,
            List.mem_toFinset, List.toFinset_cons, hij, false_or]
          try tauto
      · rw [if_neg ha] at hr
        have ha' : g.anyRel geom qd = false := by
          cases haa : g.anyRel geom qd
          · rfl
          · exact absurd haa ha
        rw [hr]
        ext j
        by_cases hij : j = i
        · subst hij
          simp [hcand, ha']
        · simp only [Finset.mem_union, Finset.mem_insert, Finset.mem_filter,
            List.mem_toFinset, List.toFinset_cons, hij, false_or]
          try tauto

theorem verifyCandidates_total {g : GeoModel} {s : DB} {qd : Query} :
    ∀ {l : List ItemId} (acc : Finset ItemId), (∀ i ∈ l, (s.items i).isSome) →
      (verifyCandidates g s qd l acc).isSome := by
  intro l
  induction l with
  | nil => intro acc _; simp [verifyCandidates]
  | cons i rest ih =>
    intro acc hl
    have hi := hl i (List.mem_cons_self ..)
    cases hii : s.items i with
    | none => rw [hii] at hi; exact absurd hi (by simp)
    | some geom =>
      simp only [verifyCandidates, hii]
      exact ih _ (fun j hj => hl j (List.mem_cons_of_mem _ hj))

/-- C2. Reader candidate verification: when `in_shape` returns a result
set, that set equals `R ∪ V`, where `R` is the union of the bitmaps of
every visited cell whose polygon the densified query fully contains, and
`V` is the set of ids accumulated in the double-check bitmap, minus `R`,
whose stored geometry has at least one relation bit set against the
densified query. -/
theorem claim2_candidate_verification (g : GeoModel) (th : ℕ) (s : DB) (q : Query)
    (fuel : ℕ) {t : Finset CellId × Finset ItemId × Finset ItemId}
    {out : Finset ItemId}
    (hb : inShapeBfs g th s q fuel = some t)
    (h : inShape g th s q fuel = .ok out) :
    out = containedUnion g s (g.densify q) t.1 ∪
      (t.2.2 \ containedUnion g s (g.densify q) t.1).filter
        (fun i => candidateRel g s (g.densify q) i) := by
  have hspec := inShapeBfs_spec hb
  unfold inShape at h
  simp only at h
  rw [hb] at h
  simp only at h
  cases hv : verifyCandidates g s (g.densify q) (ascList (t.2.2 \ t.2.1)) t.2.1 with
  | none => rw [hv] at h; exact absurd h (by simp)
  | some ids =>
    rw [hv] at h
    obtain rfl : ids = out := by exact (QueryRes.ok.injEq .. ▸ h :)
    have hok := verifyCandidates_ok hv
    rw [hok, ascList_toFinset, hspec.1]

/-- BFS triple of the concrete `in_shape` query used by the C2 witness. -/
def exBfsT : Finset CellId × Finset ItemId × Finset ItemId :=
  (inShapeBfs g0 1 exDB1 0 4).getD (∅, ∅, ∅)

/-- Result set of the concrete `in_shape` query used by the C2 witness. -/
def exQueryOut : Finset ItemId :=
  match inShape g0 1 exDB1 0 4 with
  | .ok ids => ids
  | _ => ∅

/-- Witness for C2 at a concrete input: the toy query over the built toy
database. -/
theorem claim2_candidate_verification_witness :
    inShapeBfs g0 1 exDB1 0 4 = some exBfsT ∧
      inShape g0 1 exDB1 0 4 = .ok exQueryOut ∧
      exQueryOut = containedUnion g0 exDB1 (g0.densify 0) exBfsT.1 ∪
        (exBfsT.2.2 \ containedUnion g0 exDB1 (g0.densify 0) exBfsT.1).filter
          (fun i => candidateRel g0 exDB1 (g0.densify 0) i) :=
  ⟨rfl, rfl, claim2_candidate_verification g0 1 exDB1 0 4 rfl rfl⟩

/-! Coverage: every id in a cell-variant bitmap has a stored geometry, so
the candidate lookup of the reader never hits the abort case. -/

/-- Every id of every cell-variant bitmap has a geometry under `frozen`. -/
def CovF (frozen : ItemId → Option Geom) (s : DB) : Prop :=
  ∀ c, ∀ i ∈ cellSet s c, (frozen i).isSome

/-- Every id of every cell-variant bitmap has a row in the items table. -/
def Cov (s : DB) : Prop :=
  ∀ c, ∀ i ∈ cellSet s c, (s.items i).isSome

theorem covF_putCell {frozen : ItemId → Option Geom} {s : DB} {b : Finset ItemId}
    (h : CovF frozen s) (hb : ∀ i ∈ b, (frozen i).isSome) (c : CellId) :
    CovF frozen (putCell c b s) := by
  intro d i hi
  rw [cellSet_putCell] at hi
  by_cases hd : d = c
  · rw [if_pos hd] at hi
    exact hb i hi
  · rw [if_neg hd] at hi
    exact h d i hi

theorem covF_writeBellies {frozen : ItemId → Option Geom}
    {cls : List (CellId × Finset ItemId × Finset ItemId)} {s : DB}
    (h : CovF frozen s) : CovF frozen (writeBellies cls s) := by
  intro d i hi
  rw [show cellSet (writeBellies cls s) d = cellSet s d from by
    unfold cellSet
    rw [writeBellies_cell]] at hi
  exact h d i hi

theorem processCellEntry_cov {g : GeoModel} {th : ℕ} {frozen : ItemId → Option Geom}
    {rec : DB → Finset ItemId → CellId → Except SubErr DB}
    (hrec : ∀ s its cc s', CovF frozen s → rec s its cc = .ok s' → CovF frozen s')
    {s : DB} {c : CellId} {tc : Finset ItemId} {s' : DB}
    (htc : ∀ i ∈ tc, (frozen i).isSome) (hcov : CovF frozen s)
    (h : processCellEntry g th frozen rec s c tc = .ok s') : CovF frozen s' := by
  unfold processCellEntry at h
  by_cases h0 : tc = ∅
  · rw [if_pos h0] at h
    obtain rfl := by exact (Except.ok.injEq .. ▸ h :)
    exact hcov
  · rw [if_neg h0] at h
    simp only at h
    have hcov1 : CovF frozen (putCell c (cellSet s c ∪ tc) s) := by
      refine covF_putCell hcov ?_ c
      intro i hi
      rcases Finset.mem_union.mp hi with hh | hh
      · exact hcov c i hh
      · exact htc i hh
    by_cases h1 : th ≤ (cellSet s c).card
    · rw [if_pos h1] at h
      exact hrec _ _ _ _ hcov1 h
    · rw [if_neg h1] at h
      by_cases h2 : th ≤ (cellSet s c ∪ tc).card
      · rw [if_pos h2] at h
        cases h3 : classifyItems g frozen c (ascList (cellSet s c)) ∅ ∅ with
        | error e => rw [h3] at h; exact absurd h (by simp)
        | ok p =>
          rw [h3] at h
          obtain ⟨tbX, tcX⟩ := p
          simp only at h
          exact hrec (putBelly c (bellySet (putCell c (cellSet s c ∪ tc) s) c ∪ tbX)
            (putCell c (cellSet s c ∪ tc) s)) _ _ _ hcov1 h
      · rw [if_neg h2] at h
        obtain rfl := by exact (Except.ok.injEq .. ▸ h :)
        exact hcov1

theorem processCells_cov {g : GeoModel} {th : ℕ} {frozen : ItemId → Option Geom}
    {rec : DB → Finset ItemId → CellId → Except SubErr DB}
    (hrec : ∀ s its cc s', CovF frozen s → rec s its cc = .ok s' → CovF frozen s') :
    ∀ {cls : List (CellId × Finset ItemId × Finset ItemId)} {s s' : DB},
      (∀ e ∈ cls, ∀ i ∈ e.2.2, (frozen i).isSome) → CovF frozen s →
      processCells g th frozen rec cls s = .ok s' → CovF frozen s' := by
  intro cls
  induction cls with
  | nil =>
    intro s s' _ hcov h
    simp only [processCells] at h
    obtain rfl := by exact (Except.ok.injEq .. ▸ h :)
    exact hcov
  | cons e rest ih =>
    intro s s' hcls hcov h
    simp only [processCells] at h
    cases h1 : processCellEntry g th frozen rec s e.1 e.2.2 with
    | error err => rw [h1] at h; exact absurd h (by simp)
    | ok s1 =>
      rw [h1] at h
      exact ih (fun e he => hcls e (List.mem_cons_of_mem _ he))
        (processCellEntry_cov hrec (hcls e (List.mem_cons_self ..)) hcov h1) h

theorem insertChunk_cov {g : GeoModel} {th : ℕ} {frozen : ItemId → Option Geom} :
    ∀ {fuel : ℕ} {s : DB} {items : Finset ItemId} {cell : CellId} {s' : DB},
      CovF frozen s → insertChunk g th frozen fuel s items cell = .ok s' →
      CovF frozen s' := by
  intro fuel
  induction fuel with
  | zero =>
    intro s items cell s' hcov h
    simp only [insertChunk] at h
    obtain rfl := by exact (Except.ok.injEq .. ▸ h :)
    exact hcov
  | succ fuel ih =>
    intro s items cell s' hcov h
    simp only [insertChunk] at h
    cases hch : g.childrenCells cell with
    | none =>
      rw [hch] at h
      obtain rfl := by exact (Except.ok.injEq .. ▸ h :)
      exact hcov
    | some children =>
      rw [hch] at h
      simp only at h
      cases hcl : classifyAll g frozen (ascList items) children with
      | error e => rw [hcl] at h; exact absurd h (by simp)
      | ok cls =>
        rw [hcl] at h
        have hm := classifyAll_mem hcl
        exact processCells_cov (fun s its cc s' hc hr => ih hc hr)
          (fun e he i hi => ((hm e he).2 i hi).2) (covF_writeBellies hcov) h

theorem insertOne_cov {g : GeoModel} {frozen : ItemId → Option Geom} {s : DB}
    {i : ItemId} {s' : DB} (hcov : CovF frozen s) (h : insertOne g frozen s i = .ok s') :
    CovF frozen s' := by
  unfold insertOne at h
  cases hf : frozen i with
  | none => rw [hf] at h; exact absurd h (by simp)
  | some geom =>
    rw [hf] at h
    simp only at h
    cases he : g.explodeZero geom with
    | none => rw [he] at h; exact absurd h (by simp)
    | some p =>
      rw [he] at h
      obtain ⟨cs, bs⟩ := p
      simp only at h
      obtain rfl := by exact (Except.ok.injEq .. ▸ h :)
      have hsome : (frozen i).isSome := by simp [hf]
      have h1 : ∀ (l : List CellId) (t : DB), CovF frozen t →
          CovF frozen (l.foldl (fun s c => putCell c (cellSet s c ∪ {i}) s) t) := by
        intro l
        induction l with
        | nil => exact fun t ht => ht
        | cons c rest ih =>
          intro t ht
          refine ih _ (covF_putCell ht ?_ c)
          intro j hj
          rcases Finset.mem_union.mp hj with hh | hh
          · exact ht c j hh
          · rw [Finset.mem_singleton.mp hh]
            exact hsome
      have h2 : ∀ (l : List CellId) (t : DB), CovF frozen t →
          CovF frozen (l.foldl (fun s c => putBelly c (bellySet s c ∪ {i}) s) t) := by
        intro l
        induction l with
        | nil => exact fun t ht => ht
        | cons c rest ih =>
          intro t ht
          refine ih _ ?_
          intro d j hj
          exact ht d j hj
      exact h2 bs _ (h1 cs s hcov)

theorem insertLevelZero_cov {g : GeoModel} {frozen : ItemId → Option Geom} :
    ∀ {l : List ItemId} {s s' : DB}, CovF frozen s →
      insertLevelZero g frozen l s = .ok s' → CovF frozen s' := by
  intro l
  induction l with
  | nil =>
    intro s s' hcov h
    simp only [insertLevelZero] at h
    obtain rfl := by exact (Except.ok.injEq .. ▸ h :)
    exact hcov
  | cons i rest ih =>
    intro s s' hcov h
    simp only [insertLevelZero] at h
    cases h1 : insertOne g frozen s i with
    | error e => rw [h1] at h; exact absurd h (by simp)
    | ok s1 =>
      rw [h1] at h
      exact ih (insertOne_cov hcov h1) h

theorem buildLoop_cov {g : GeoModel} {th : ℕ} {frozen : ItemId → Option Geom}
    {inserted : Finset ItemId} :
    ∀ {l : List CellId} {s s' : DB}, CovF frozen s →
      buildLoop g th frozen inserted l s = .ok s' → CovF frozen s' := by
  intro l
  induction l with
  | nil =>
    intro s s' hcov h
    simp only [buildLoop] at h
    obtain rfl := by exact (Except.ok.injEq .. ▸ h :)
    exact hcov
  | cons c rest ih =>
    intro s s' hcov h
    simp only [buildLoop] at h
    by_cases hc : (cellSet s c).card < th ∨ cellSet s c ∩ inserted = ∅
    · rw [if_pos hc] at h
      exact ih hcov h
    · rw [if_neg hc] at h
      cases h1 : insertChunk g th frozen buildFuel s (cellSet s c) c with
      | error e => rw [h1] at h; exact absurd h (by simp)
      | ok s1 =>
        rw [h1] at h
        exact ih (insertChunk_cov hcov h1) h

theorem build_ok_cov {g : GeoModel} {th : ℕ} {s s' : DB}
    (hcov : Cov s) (h : build g th s = .ok s') : Cov s' := by
  unfold build at h
  split at h
  · exact absurd h (by simp)
  · simp only at h
    split at h
    next e heq => exact absurd h (by simp)
    next s1 heq =>
      split at h
      next e heq2 => exact absurd h (by simp)
      next s2 heq2 =>
        obtain rfl := by exact (Except.ok.injEq .. ▸ h :)
        set sr := removeDeleted s.updDel { s with updIns := ∅, updDel := ∅ } with hsr
        have hcr : CovF sr.items sr := by
          intro c i hi
          simp only [hsr, cellSet, removeDeleted] at hi ⊢
          cases hcc : s.cell c with
          | none => rw [hcc] at hi; exact absurd hi (by simp)
          | some b =>
            rw [hcc] at hi
            simp only at hi
            by_cases hb : b \ s.updDel = ∅
            · rw [if_pos hb] at hi
              exact absurd hi (by simp)
            · rw [if_neg hb] at hi
              simp only [Option.getD_some] at hi
              have hib := Finset.mem_sdiff.mp hi
              rw [if_neg hib.2]
              exact hcov c i (by simp [cellSet, hcc, hib.1])
        have hc1 : CovF sr.items s1 := insertLevelZero_cov hcr heq
        have hc2 : CovF sr.items s2 := buildLoop_cov hc1 heq2
        intro c i hi
        show (s2.items i).isSome
        rw [(buildLoop_frame heq2).1, (insertLevelZero_frame heq).1]
        exact hc2 c i hi

/-- Every reachable state satisfies the coverage invariant. -/
theorem reachable_cov {g : GeoModel} {th : ℕ} {s : DB} (h : Reachable g th s) : Cov s := by
  induction h with
  | empty => intro c i hi; exact absurd hi (by simp [cellSet, emptyDB])
  | add j geom h ih =>
    intro c i hi
    have := ih c i hi
    show ((addOp j geom _).items i).isSome
    simp only [addOp]
    by_cases hij : i = j <;> simp [hij, this]
  | addRaw j geom h ih =>
    intro c i hi
    have := ih c i hi
    show ((addRawOp j geom _).items i).isSome
    simp only [addRawOp]
    by_cases hij : i = j <;> simp [hij, this]
  | delete j h ih => exact ih
  | clear h ih => intro c i hi; exact absurd hi (by simp [cellSet, clearOp, emptyDB])
  | build h hb ih => exact build_ok_cov ih hb

/-- Toy geometry model whose resolution-0 tiler rejects every query
polygon, as the real tiler rejects a degenerate polygon (for example the
one `in_circle` builds from fewer than 3 vertices). The builder-side
fields are those of `g0`. -/
def gBadTiler : GeoModel := { g0 with tileZero := fun _ => none }

/-- State built under `gBadTiler` (whose builder-side behaviour equals
`g0`): one item in base cell 0 and child cell 7. -/
def exW9 : DB := (build gBadTiler 1 (addOp 0 0 emptyDB)).toOption.getD emptyDB

/-- Counterexample to C9 as stated. On a reachable state, `in_shape`
propagates the resolution-0 tiler failure (`tiler.add(polygon.clone())?`
at src/reader.rs line 38, a `Result<_, InvalidGeometry>` converted to
`Error::InvalidGeometry` by src/error.rs lines 31-32) and so returns an
error kind that is neither a result set nor a KV-store I/O error;
`in_circle` called with fewer than 3 vertices reaches this path in the
real code through its degenerate polygon. -/
theorem claim9_error_kind_counterexample :
    Reachable gBadTiler 1 exW9 ∧
      inShape gBadTiler 1 exW9 0 4 = QueryRes.invalidGeometry := by
  refine ⟨Reachable.build (Reachable.add 0 0 Reachable.empty) rfl, ?_⟩
  decide

/-- C9, amended: on every database state reachable through the public
API, `in_shape` and `in_circle` modify no table (they are pure functions
of the state in this embedding) and return either a result set or the
`InvalidGeometry` error propagated from the polygon tilers — besides the
KV-store I/O errors, which the embedding does not model, that is the only
other error kind — and they never abort: the item lookup performed for
each double-check candidate always finds a stored geometry, so the
`unwrap` of src/reader.rs line 100 never panics. -/
theorem claim9_query_outcomes {g : GeoModel} {th : ℕ} {s : DB} (h : Reachable g th s)
    (q : Query) (fuel : ℕ) (center radius n : ℕ) :
    ((∃ ids, inShape g th s q fuel = .ok ids) ∨
        inShape g th s q fuel = .invalidGeometry) ∧
      ((∃ ids, inCircle g th s center radius n fuel = .ok ids) ∨
        inCircle g th s center radius n fuel = .invalidGeometry) := by
  have hcov := reachable_cov h
  have key : ∀ q' : Query, (∃ ids, inShape g th s q' fuel = .ok ids) ∨
      inShape g th s q' fuel = .invalidGeometry := by
    intro q'
    unfold inShape
    simp only
    cases hbfs : inShapeBfs g th s q' fuel with
    | none => exact Or.inr rfl
    | some t =>
      refine Or.inl ?_
      have hspec := (inShapeBfs_spec hbfs).2
      have htotal : (verifyCandidates g s (g.densify q')
          (ascList (t.2.2 \ t.2.1)) t.2.1).isSome := by
        refine verifyCandidates_total _ ?_
        intro i hi
        have hidc : i ∈ t.2.2 := (Finset.mem_sdiff.mp (mem_ascList.mp hi)).1
        rw [hspec] at hidc
        obtain ⟨c, hic⟩ := mem_doubleCheckUnion hidc
        exact hcov c i hic
      obtain ⟨ids, hids⟩ := Option.isSome_iff_exists.mp htotal
      refine ⟨ids, ?_⟩
      show (match verifyCandidates g s (g.densify q') (ascList (t.2.2 \ t.2.1)) t.2.1 with
        | none => QueryRes.abort
        | some ids => QueryRes.ok ids) = QueryRes.ok ids
      rw [hids]
  exact ⟨key q, key (g.circlePoly center radius n)⟩

/-- Witness for the amended C9 at a concrete input: the built toy
database answers both query forms. -/
theorem claim9_query_outcomes_witness :
    Reachable g0 1 exDB1 ∧
      ((∃ ids, inShape g0 1 exDB1 0 4 = .ok ids) ∨
        inShape g0 1 exDB1 0 4 = .invalidGeometry) ∧
      ((∃ ids, inCircle g0 1 exDB1 0 0 0 4 = .ok ids) ∨
        inCircle g0 1 exDB1 0 0 0 4 = .invalidGeometry) := by
  have hr : Reachable g0 1 exDB1 := Reachable.build (Reachable.add 0 0 Reachable.empty) rfl
  exact ⟨hr, (claim9_query_outcomes hr 0 4 0 0 0).1, (claim9_query_outcomes hr 0 4 0 0 0).2⟩

/-! Monotonicity: the recursive split only enlarges cell-variant bitmaps
and never removes a cell-variant row. -/

/-- Every cell-variant bitmap of `s` is contained in the corresponding
bitmap of `s'`, and every row of `s` still exists in `s'`. -/
def cellLe (s s' : DB) : Prop :=
  ∀ d, cellSet s d ⊆ cellSet s' d ∧ ((s.cell d).isSome → (s'.cell d).isSome)

theorem cellLe_refl (s : DB) : cellLe s s := fun _ => ⟨le_refl _, id⟩

theorem cellLe_trans {s1 s2 s3 : DB} (h1 : cellLe s1 s2) (h2 : cellLe s2 s3) :
    cellLe s1 s3 :=
  fun d => ⟨(h1 d).1.trans (h2 d).1, fun hd => (h2 d).2 ((h1 d).2 hd)⟩

theorem cellLe_putCell {s : DB} {c : CellId} {b : Finset ItemId}
    (hb : cellSet s c ⊆ b) : cellLe s (putCell c b s) := by
  intro d
  rw [cellSet_putCell]
  constructor
  · by_cases hd : d = c
    · rw [if_pos hd, hd]
      exact hb
    · rw [if_neg hd]
  · intro hd
    rw [cell_putCell]
    by_cases hdc : d = c
    · simp [hdc]
    · simpa [hdc] using hd

theorem cellLe_putBelly (s : DB) (c : CellId) (b : Finset ItemId) :
    cellLe s (putBelly c b s) := cellLe_refl s

theorem cellLe_writeBellies (cls : List (CellId × Finset ItemId × Finset ItemId)) (s : DB) :
    cellLe s (writeBellies cls s) := by
  intro d
  unfold cellSet
  rw [writeBellies_cell]
  exact ⟨le_refl _, id⟩

theorem processCellEntry_mono {g : GeoModel} {th : ℕ} {frozen : ItemId → Option Geom}
    {rec : DB → Finset ItemId → CellId → Except SubErr DB}
    (hrec : ∀ s its cc s', rec s its cc = .ok s' → cellLe s s')
    {s : DB} {c : CellId} {tc : Finset ItemId} {s' : DB}
    (h : processCellEntry g th frozen rec s c tc = .ok s') : cellLe s s' := by
  unfold processCellEntry at h
  by_cases h0 : tc = ∅
  · rw [if_pos h0] at h
    obtain rfl := by exact (Except.ok.injEq .. ▸ h :)
    exact cellLe_refl s
  · rw [if_neg h0] at h
    simp only at h
    have hle1 : cellLe s (putCell c (cellSet s c ∪ tc) s) :=
      cellLe_putCell Finset.subset_union_left
    by_cases h1 : th ≤ (cellSet s c).card
    · rw [if_pos h1] at h
      exact cellLe_trans hle1 (hrec _ _ _ _ h)
    · rw [if_neg h1] at h
      by_cases h2 : th ≤ (cellSet s c ∪ tc).card
      · rw [if_pos h2] at h
        cases h3 : classifyItems g frozen c (ascList (cellSet s c)) ∅ ∅ with
        | error e => rw [h3] at h; exact absurd h (by simp)
        | ok p =>
          rw [h3] at h
          obtain ⟨tbX, tcX⟩ := p
          simp only at h
          exact @cellLe_trans s
            (putBelly c (bellySet (putCell c (cellSet s c ∪ tc) s) c ∪ tbX)
              (putCell c (cellSet s c ∪ tc) s)) s' hle1 (hrec _ _ _ _ h)
      · rw [if_neg h2] at h
        obtain rfl := by exact (Except.ok.injEq .. ▸ h :)
        exact hle1

theorem processCells_mono {g : GeoModel} {th : ℕ} {frozen : ItemId → Option Geom}
    {rec : DB → Finset ItemId → CellId → Except SubErr DB}
    (hrec : ∀ s its cc s', rec s its cc = .ok s' → cellLe s s') :
    ∀ {cls : List (CellId × Finset ItemId × Finset ItemId)} {s s' : DB},
      processCells g th frozen rec cls s = .ok s' → cellLe s s' := by
  intro cls
  induction cls with
  | nil =>
    intro s s' h
    simp only [processCells] at h
    obtain rfl := by exact (Except.ok.injEq .. ▸ h :)
    exact cellLe_refl s
  | cons e rest ih =>
    intro s s' h
    simp only [processCells] at h
    cases h1 : processCellEntry g th frozen rec s e.1 e.2.2 with
    | error err => rw [h1] at h; exact absurd h (by simp)
    | ok s1 =>
      rw [h1] at h
      exact cellLe_trans (processCellEntry_mono hrec h1) (ih h)

theorem insertChunk_mono {g : GeoModel} {th : ℕ} {frozen : ItemId → Option Geom} :
    ∀ {fuel : ℕ} {s : DB} {items : Finset ItemId} {cell : CellId} {s' : DB},
      insertChunk g th frozen fuel s items cell = .ok s' → cellLe s s' := by
  intro fuel
  induction fuel with
  | zero =>
    intro s items cell s' h
    simp only [insertChunk] at h
    obtain rfl := by exact (Except.ok.injEq .. ▸ h :)
    exact cellLe_refl s
  | succ fuel ih =>
    intro s items cell s' h
    simp only [insertChunk] at h
    cases hch : g.childrenCells cell with
    | none =>
      rw [hch] at h
      obtain rfl := by exact (Except.ok.injEq .. ▸ h :)
      exact cellLe_refl s
    | some children =>
      rw [hch] at h
      simp only at h
      cases hcl : classifyAll g frozen (ascList items) children with
      | error e => rw [hcl] at h; exact absurd h (by simp)
      | ok cls =>
        rw [hcl] at h
        exact cellLe_trans (cellLe_writeBellies cls s)
          (processCells_mono (fun s its cc s' hr => ih hr) h)

/-! Parent-threshold invariant for insert-only histories: every persisted
cell-variant row lies at a base cell or at a child of some cell whose own
bitmap holds at least `threshold` elements. -/

/-- Parent-threshold invariant. -/
def CInv (g : GeoModel) (th : ℕ) (s : DB) : Prop :=
  ∀ D, (s.cell D).isSome → D ∈ g.baseCells ∨
    ∃ P cs, g.childrenCells P = some cs ∧ D ∈ cs ∧ th ≤ (cellSet s P).card

theorem cInv_congr {g : GeoModel} {th : ℕ} {s s' : DB} (hcell : s'.cell = s.cell)
    (h : CInv g th s) : CInv g th s' := by
  intro D hD
  rw [hcell] at hD
  rcases h D hD with h1 | ⟨P, cs, ha, hb, hc⟩
  · exact Or.inl h1
  · refine Or.inr ⟨P, cs, ha, hb, ?_⟩
    rw [show cellSet s' P = cellSet s P from by unfold cellSet; rw [hcell]]
    exact hc

theorem cInv_putCell_child {g : GeoModel} {th : ℕ} {s : DB} (hci : CInv g th s)
    {P : CellId} {cs : List CellId} (hcs : g.childrenCells P = some cs)
    {c : CellId} (hc : c ∈ cs) (hth : th ≤ (cellSet s P).card)
    {b : Finset ItemId} (hb : cellSet s c ⊆ b) : CInv g th (putCell c b s) := by
  have hle := cellLe_putCell hb
  intro D hD
  rw [cell_putCell] at hD
  by_cases hd : D = c
  · subst hd
    exact Or.inr ⟨P, cs, hcs, hc, hth.trans (Finset.card_le_card (hle P).1)⟩
  · rw [if_neg hd] at hD
    rcases hci D hD with h1 | ⟨Q, csQ, ha, hb2, hc2⟩
    · exact Or.inl h1
    · exact Or.inr ⟨Q, csQ, ha, hb2, hc2.trans (Finset.card_le_card (hle Q).1)⟩

theorem cInv_putCell_base {g : GeoModel} {th : ℕ} {s : DB} (hci : CInv g th s)
    {c : CellId} (hbase : c ∈ g.baseCells)
    {b : Finset ItemId} (hb : cellSet s c ⊆ b) : CInv g th (putCell c b s) := by
  have hle := cellLe_putCell hb
  intro D hD
  rw [cell_putCell] at hD
  by_cases hd : D = c
  · subst hd
    exact Or.inl hbase
  · rw [if_neg hd] at hD
    rcases hci D hD with h1 | ⟨Q, csQ, ha, hb2, hc2⟩
    · exact Or.inl h1
    · exact Or.inr ⟨Q, csQ, ha, hb2, hc2.trans (Finset.card_le_card (hle Q).1)⟩

theorem processCellEntry_cInv {g : GeoModel} {th : ℕ} {frozen : ItemId → Option Geom}
    {rec : DB → Finset ItemId → CellId → Except SubErr DB}
    (hrecI : ∀ s its cc s', th ≤ (cellSet s cc).card → CInv g th s →
      rec s its cc = .ok s' → CInv g th s')
    {P : CellId} {cs : List CellId} (hcs : g.childrenCells P = some cs)
    {s : DB} {c : CellId} {tc : Finset ItemId} {s' : DB}
    (hc : c ∈ cs) (hth : th ≤ (cellSet s P).card) (hci : CInv g th s)
    (h : processCellEntry g th frozen rec s c tc = .ok s') : CInv g th s' := by
  unfold processCellEntry at h
  by_cases h0 : tc = ∅
  · rw [if_pos h0] at h
    obtain rfl := by exact (Except.ok.injEq .. ▸ h :)
    exact hci
  · rw [if_neg h0] at h
    simp only at h
    have hci1 : CInv g th (putCell c (cellSet s c ∪ tc) s) :=
      cInv_putCell_child hci hcs hc hth Finset.subset_union_left
    have hcs1 : cellSet (putCell c (cellSet s c ∪ tc) s) c = cellSet s c ∪ tc := by
      rw [cellSet_putCell, if_pos rfl]
    by_cases h1 : th ≤ (cellSet s c).card
    · rw [if_pos h1] at h
      refine hrecI _ _ _ _ ?_ hci1 h
      rw [hcs1]
      exact h1.trans (Finset.card_le_card Finset.subset_union_left)
    · rw [if_neg h1] at h
      by_cases h2 : th ≤ (cellSet s c ∪ tc).card
      · rw [if_pos h2] at h
        cases h3 : classifyItems g frozen c (ascList (cellSet s c)) ∅ ∅ with
        | error e => rw [h3] at h; exact absurd h (by simp)
        | ok p =>
          rw [h3] at h
          obtain ⟨tbX, tcX⟩ := p
          simp only at h
          refine hrecI (putBelly c (bellySet (putCell c (cellSet s c ∪ tc) s) c ∪ tbX)
            (putCell c (cellSet s c ∪ tc) s)) _ _ _ ?_ hci1 h
          show th ≤ (cellSet (putCell c (cellSet s c ∪ tc) s) c).card
          rw [hcs1]
          exact h2
      · rw [if_neg h2] at h
        obtain rfl := by exact (Except.ok.injEq .. ▸ h :)
        exact hci1

theorem processCells_cInv {g : GeoModel} {th : ℕ} {frozen : ItemId → Option Geom}
    {rec : DB → Finset ItemId → CellId → Except SubErr DB}
    (hrecI : ∀ s its cc s', th ≤ (cellSet s cc).card → CInv g th s →
      rec s its cc = .ok s' → CInv g th s')
    (hrecM : ∀ s its cc s', rec s its cc = .ok s' → cellLe s s')
    {P : CellId} {cs : List CellId} (hcs : g.childrenCells P = some cs) :
    ∀ {cls : List (CellId × Finset ItemId × Finset ItemId)} {s s' : DB},
      (∀ e ∈ cls, e.1 ∈ cs) → th ≤ (cellSet s P).card → CInv g th s →
      processCells g th frozen rec cls s = .ok s' → CInv g th s' := by
  intro cls
  induction cls with
  | nil =>
    intro s s' _ _ hci h
    simp only [processCells] at h
    obtain rfl := by exact (Except.ok.injEq .. ▸ h :)
    exact hci
  | cons e rest ih =>
    intro s s' hcls hth hci h
    simp only [processCells] at h
    cases h1 : processCellEntry g th frozen rec s e.1 e.2.2 with
    | error err => rw [h1] at h; exact absurd h (by simp)
    | ok s1 =>
      rw [h1] at h
      have hci1 := processCellEntry_cInv hrecI hcs (hcls e (List.mem_cons_self ..)) hth hci h1
      have hth1 : th ≤ (cellSet s1 P).card :=
        hth.trans (Finset.card_le_card ((processCellEntry_mono hrecM h1) P).1)
      exact ih (fun e he => hcls e (List.mem_cons_of_mem _ he)) hth1 hci1 h

theorem insertChunk_cInv {g : GeoModel} {th : ℕ} {frozen : ItemId → Option Geom} :
    ∀ {fuel : ℕ} {s : DB} {items : Finset ItemId} {cell : CellId} {s' : DB},
      th ≤ (cellSet s cell).card → CInv g th s →
      insertChunk g th frozen fuel s items cell = .ok s' → CInv g th s' := by
  intro fuel
  induction fuel with
  | zero =>
    intro s items cell s' _ hci h
    simp only [insertChunk] at h
    obtain rfl := by exact (Except.ok.injEq .. ▸ h :)
    exact hci
  | succ fuel ih =>
    intro s items cell s' hth hci h
    simp only [insertChunk] at h
    cases hch : g.childrenCells cell with
    | none =>
      rw [hch] at h
      obtain rfl := by exact (Except.ok.injEq .. ▸ h :)
      exact hci
    | some children =>
      rw [hch] at h
      simp only at h
      cases hcl : classifyAll g frozen (ascList items) children with
      | error e => rw [hcl] at h; exact absurd h (by simp)
      | ok cls =>
        rw [hcl] at h
        have hciW : CInv g th (writeBellies cls s) :=
          cInv_congr (writeBellies_cell cls s) hci
        have hthW : th ≤ (cellSet (writeBellies cls s) cell).card := by
          rw [show cellSet (writeBellies cls s) cell = cellSet s cell from by
            unfold cellSet
            rw [writeBellies_cell]]
          exact hth
        exact processCells_cInv (fun s its cc s' ht hc hr => ih ht hc hr)
          (fun s its cc s' hr => insertChunk_mono hr) hch
          (classifyAll_cells hcl) hthW hciW h

theorem insertOne_cInv {g : GeoModel} {frozen : ItemId → Option Geom} {th : ℕ}
    (hexp : ∀ geom cs bs, g.explodeZero geom = some (cs, bs) → ∀ c ∈ cs, c ∈ g.baseCells)
    {s : DB} {i : ItemId} {s' : DB} (hci : CInv g th s)
    (h : insertOne g frozen s i = .ok s') : CInv g th s' := by
  unfold insertOne at h
  cases hf : frozen i with
  | none => rw [hf] at h; exact absurd h (by simp)
  | some geom =>
    rw [hf] at h
    simp only at h
    cases he : g.explodeZero geom with
    | none => rw [he] at h; exact absurd h (by simp)
    | some p =>
      rw [he] at h
      obtain ⟨cs, bs⟩ := p
      simp only at h
      obtain rfl := by exact (Except.ok.injEq .. ▸ h :)
      have hbase := hexp geom cs bs he
      have h1 : ∀ (l : List CellId), (∀ c ∈ l, c ∈ g.baseCells) → ∀ (t : DB), CInv g th t →
          CInv g th (l.foldl (fun s c => putCell c (cellSet s c ∪ {i}) s) t) := by
        intro l
        induction l with
        | nil => exact fun _ t ht => ht
        | cons c rest ih =>
          intro hl t ht
          refine ih (fun c hc => hl c (List.mem_cons_of_mem _ hc)) _ ?_
          exact cInv_putCell_base ht (hl c (List.mem_cons_self ..)) Finset.subset_union_left
      have h2cell : ∀ (l : List CellId) (t : DB),
          (l.foldl (fun s c => putBelly c (bellySet s c ∪ {i}) s) t).cell = t.cell := by
        intro l
        induction l with
        | nil => exact fun t => rfl
        | cons c rest ih =>
          intro t
          rw [show (c :: rest).foldl (fun s c => putBelly c (bellySet s c ∪ {i}) s) t =
            rest.foldl (fun s c => putBelly c (bellySet s c ∪ {i}) s)
              (putBelly c (bellySet t c ∪ {i}) t) from rfl, ih]
          rfl
      exact cInv_congr (h2cell bs _) (h1 cs hbase s hci)

theorem insertLevelZero_cInv {g : GeoModel} {frozen : ItemId → Option Geom} {th : ℕ}
    (hexp : ∀ geom cs bs, g.explodeZero geom = some (cs, bs) → ∀ c ∈ cs, c ∈ g.baseCells) :
    ∀ {l : List ItemId} {s s' : DB}, CInv g th s →
      insertLevelZero g frozen l s = .ok s' → CInv g th s' := by
  intro l
  induction l with
  | nil =>
    intro s s' hci h
    simp only [insertLevelZero] at h
    obtain rfl := by exact (Except.ok.injEq .. ▸ h :)
    exact hci
  | cons i rest ih =>
    intro s s' hci h
    simp only [insertLevelZero] at h
    cases h1 : insertOne g frozen s i with
    | error e => rw [h1] at h; exact absurd h (by simp)
    | ok s1 =>
      rw [h1] at h
      exact ih (insertOne_cInv hexp hci h1) h

theorem buildLoop_cInv {g : GeoModel} {th : ℕ} {frozen : ItemId → Option Geom}
    {inserted : Finset ItemId} :
    ∀ {l : List CellId} {s s' : DB}, CInv g th s →
      buildLoop g th frozen inserted l s = .ok s' → CInv g th s' := by
  intro l
  induction l with
  | nil =>
    intro s s' hci h
    simp only [buildLoop] at h
    obtain rfl := by exact (Except.ok.injEq .. ▸ h :)
    exact hci
  | cons c rest ih =>
    intro s s' hci h
    simp only [buildLoop] at h
    by_cases hc : (cellSet s c).card < th ∨ cellSet s c ∩ inserted = ∅
    · rw [if_pos hc] at h
      exact ih hci h
    · rw [if_neg hc] at h
      cases h1 : insertChunk g th frozen buildFuel s (cellSet s c) c with
      | error e => rw [h1] at h; exact absurd h (by simp)
      | ok s1 =>
        rw [h1] at h
        have hth : th ≤ (cellSet s c).card := by
          rcases not_or.mp hc with ⟨h2, _⟩
          exact Nat.le_of_not_lt h2
        exact ih (insertChunk_cInv hth hci h1) h

theorem removeDeleted_cell_eq {s : DB} (hP : noEmptyCell s) :
    (removeDeleted ∅ s).cell = s.cell := by
  funext c
  simp only [removeDeleted]
  cases hcc : s.cell c with
  | none => rfl
  | some b =>
    have hb : ¬b = ∅ := fun hcon => hP c (by rw [hcc, hcon])
    simp [Finset.sdiff_empty, hb]

theorem build_cInv {g : GeoModel} {th : ℕ} {s s' : DB}
    (hexp : ∀ geom cs bs, g.explodeZero geom = some (cs, bs) → ∀ c ∈ cs, c ∈ g.baseCells)
    (hdel : s.updDel = ∅) (hP : noEmptyCell s) (hci : CInv g th s)
    (h : build g th s = .ok s') : CInv g th s' := by
  unfold build at h
  split at h
  · exact absurd h (by simp)
  · simp only at h
    split at h
    next e heq => exact absurd h (by simp)
    next s1 heq =>
      split at h
      next e heq2 => exact absurd h (by simp)
      next s2 heq2 =>
        obtain rfl := by exact (Except.ok.injEq .. ▸ h :)
        rw [hdel] at heq
        have hcr : CInv g th (removeDeleted ∅ { s with updIns := ∅, updDel := ∅ }) := by
          refine cInv_congr ?_ hci
          exact @removeDeleted_cell_eq { s with updIns := ∅, updDel := ∅ } hP
        have hc1 : CInv g th s1 := insertLevelZero_cInv hexp hcr heq
        have hc2 : CInv g th s2 := buildLoop_cInv hc1 heq2
        exact cInv_congr rfl hc2

/-- Combined invariant along insert-only histories: the pending-deletes
set is empty, no cell-variant row is empty, and the parent-threshold
invariant holds. -/
theorem reachableND_inv {g : GeoModel} {th : ℕ} {s : DB}
    (hexp : ∀ geom cs bs, g.explodeZero geom = some (cs, bs) → ∀ c ∈ cs, c ∈ g.baseCells)
    (h : ReachableNoDelete g th s) :
    s.updDel = ∅ ∧ noEmptyCell s ∧ CInv g th s := by
  induction h with
  | empty =>
    exact ⟨rfl, fun c => by simp [emptyDB], fun D hD => absurd hD (by simp [emptyDB])⟩
  | add i geom h ih =>
    refine ⟨?_, ih.2.1, ih.2.2⟩
    simp [addOp, ih.1]
  | addRaw i geom h ih =>
    refine ⟨?_, ih.2.1, ih.2.2⟩
    simp [addRawOp, ih.1]
  | build h hb ih =>
    exact ⟨(build_ok_shape hb).2.2.1, (build_ok_shape hb).2.2.2,
      build_cInv hexp ih.1 ih.2.1 ih.2.2 hb⟩

/-- Counterexample to C5 as stated. Under the toy model with threshold 2,
adding two items, building, deleting one of them and building again
reaches a state in which the child cell 7 of base cell 0 still has a
persisted cell-variant row while `cell[0]` holds a single element: the
deletion scan shrinks every bitmap but never removes the children of a
cell that has fallen below the threshold (the builder's own TODO comment
acknowledges that the database does not shrink). -/
theorem claim5_threshold_counterexample :
    Reachable g0 2 exDB5 ∧ g0.childrenCells 0 = some [7] ∧ (7 : CellId) ∈ [7] ∧
      (exDB5.cell 7).isSome ∧ (cellSet exDB5 0).card < 2 := by
  refine ⟨?_, rfl, by decide, by decide, by decide⟩
  exact Reachable.build
    (Reachable.delete 0
      (Reachable.build (Reachable.add 1 1 (Reachable.add 0 0 Reachable.empty)) rfl)) rfl

/-- C5, amended: along histories made only of `add` / `add_raw_zerometry`
and successful builds (no deletion), and provided the level-zero explosion
emits only base cells (true of the real resolution-0 tiler), every
persisted cell-variant row lies either at a base cell or at a child cell
of some cell `P` whose own persisted bitmap holds at least `threshold`
elements. The per-parent form of the original claim additionally fails
because the over-covering children sets (`center_child` grid disks of
radius 2) of distinct parents overlap, so a row can be the child of a
below-threshold cell while having been produced by splitting another. -/
theorem claim5_threshold_parent {g : GeoModel} {th : ℕ} {s : DB}
    (hexp : ∀ geom cs bs, g.explodeZero geom = some (cs, bs) → ∀ c ∈ cs, c ∈ g.baseCells)
    (h : ReachableNoDelete g th s) :
    ∀ D, (s.cell D).isSome → D ∈ g.baseCells ∨
      ∃ P cs, g.childrenCells P = some cs ∧ D ∈ cs ∧ th ≤ (cellSet s P).card :=
  (reachableND_inv hexp h).2.2

theorem g0_explode_base :
    ∀ geom cs bs, g0.explodeZero geom = some (cs, bs) → ∀ c ∈ cs, c ∈ g0.baseCells := by
  intro geom cs bs heq c hc
  simp only [g0] at heq
  obtain ⟨h1, h2⟩ := Prod.mk.injEq .. ▸ (Option.some.injEq .. ▸ heq :)
  subst h1
  exact hc

/-- Witness for the amended C5 at a concrete input: the insert-only state
`exDB1` and its non-base row at cell 7. -/
theorem claim5_threshold_parent_witness :
    ReachableNoDelete g0 1 exDB1 ∧ (exDB1.cell 7).isSome ∧
      (7 ∈ g0.baseCells ∨
        ∃ P cs, g0.childrenCells P = some cs ∧ 7 ∈ cs ∧ 1 ≤ (cellSet exDB1 P).card) := by
  have hr : ReachableNoDelete g0 1 exDB1 :=
    ReachableNoDelete.build (ReachableNoDelete.add 0 0 ReachableNoDelete.empty) rfl
  exact ⟨hr, by decide, claim5_threshold_parent g0_explode_base hr 7 (by decide)⟩
